import Mathlib

/-!
# Verification of `clad::Graph<T>` (include/clad/Differentiator/Graph.h)

A shallow embedding of the dependency-graph container:
* `nodes`      : `std::vector<T>` — insertion-ordered node store, index = id;
* `nodeMap`    : `std::unordered_map<T, std::pair<bool,int>>` — modelled as an
  association list from value to (active flag, id); insertion order of keys
  matches the node store, which is an invariant of every constructed state;
* `adjList`, `revAdjList` : `std::unordered_map<size_t, std::set<size_t>>` —
  modelled as lists indexed by id (the map's key set is exactly
  `{0, …, nodes.size()-1}` in every constructed state, keys being created
  exactly at `addNode`); each entry is the sorted duplicate-free list of a
  `std::set<size_t>`; reading an absent key yields the empty set, as
  `operator[]` default-constructs;
* `sources`    : `std::set<size_t>` — sorted list of ids.

The recursive DFS of `topologicalSort` and the explicit-stack traversal of
`removeNonReachable` are given a fuel argument for totality; the fuel passed
by the wrappers is proved sufficient on constructed states, so no truncation
ever occurs there.
-/

namespace CladGraph

/-- `std::set<size_t>::insert`: insertion into a sorted duplicate-free list. -/
def insertSorted (x : Nat) : List Nat → List Nat
  | [] => [x]
  | y :: ys =>
    if x < y then x :: y :: ys
    else if x = y then y :: ys
    else y :: insertSorted x ys

/-- `std::set<size_t>::erase`. -/
def eraseId (l : List Nat) (x : Nat) : List Nat := l.filter (fun y => y ≠ x)

/-- Read `adjList[i]`: `operator[]` on an absent key yields the empty set. -/
def getAdj (adj : List (List Nat)) (i : Nat) : List Nat := adj.getD i []

/-- Overwrite the adjacency entry of id `i`. -/
def setAdj (adj : List (List Nat)) (i : Nat) (l : List Nat) : List (List Nat) :=
  adj.set i l

/-- `nodeMap.find(v)`: lookup in the association list. -/
def lookupNM {T : Type} [DecidableEq T] : List (T × Bool × Nat) → T → Option (Bool × Nat)
  | [], _ => none
  | e :: rest, v => if e.1 = v then some e.2 else lookupNM rest v

/-- `nodeMap[v] = p`: insert-or-assign in the association list. -/
def updNM {T : Type} [DecidableEq T] : List (T × Bool × Nat) → T → Bool × Nat → List (T × Bool × Nat)
  | [], v, p => [(v, p)]
  | e :: rest, v, p => if e.1 = v then (v, p) :: rest else e :: updNM rest v p

/-- The state of a `clad::Graph<T>`. -/
structure Graph (T : Type) where
  nodes : List T
  nodeMap : List (T × Bool × Nat)
  adjList : List (List Nat)
  revAdjList : List (List Nat)
  sources : List Nat

/-- The default-constructed graph. -/
def emptyGraph (T : Type) : Graph T :=
  { nodes := [], nodeMap := [], adjList := [], revAdjList := [], sources := [] }

variable {T : Type} [DecidableEq T]

/-- `Graph::addNode(node, isSource)`. -/
def Graph.addNode (g : Graph T) (node : T) (isSource : Bool) : Graph T :=
  match lookupNM g.nodeMap node with
  | none =>
    -- unseen: id = nodes.size(); nodes.push_back; nodeMap[node] = {true, id};
    -- adjList[id] = {}; revAdjList[id] = {}; sources.insert(id) if isSource
    let id := g.nodes.length
    { nodes := g.nodes ++ [node]
      nodeMap := updNM g.nodeMap node (true, id)
      adjList := g.adjList ++ [[]]
      revAdjList := g.revAdjList ++ [[]]
      sources := if isSource then insertSorted id g.sources else g.sources }
  | some (false, id) =>
    -- seen and inactive: reactivate, keeping the id
    { g with nodeMap := updNM g.nodeMap node (true, id) }
  | some (true, _) => g

/-- `nodeMap[v].second` after `v` is known (`operator[]` default gives `(false, 0)`). -/
def Graph.idOf (g : Graph T) (v : T) : Nat := ((lookupNM g.nodeMap v).getD (false, 0)).2

/-- `Graph::addEdge(src, dest)`. -/
def Graph.addEdge (g : Graph T) (src dest : T) : Graph T :=
  let g1 := (g.addNode src false).addNode dest false
  let srcId := g1.idOf src
  let destId := g1.idOf dest
  { g1 with
    adjList := setAdj g1.adjList srcId (insertSorted destId (getAdj g1.adjList srcId))
    revAdjList := setAdj g1.revAdjList destId (insertSorted srcId (getAdj g1.revAdjList destId)) }

/-- `Graph::removeNode(node)`. -/
def Graph.removeNode (g : Graph T) (node : T) : Graph T :=
  match lookupNM g.nodeMap node with
  | none => g
  | some (_, id) =>
    let nm := updNM g.nodeMap node (false, id)
    -- for (destId : adjList[id]) revAdjList[destId].erase(id);
    let radj1 := (getAdj g.adjList id).foldl
      (fun r destId => setAdj r destId (eraseId (getAdj r destId) id)) g.revAdjList
    -- adjList[id].clear();
    let adj1 := setAdj g.adjList id []
    -- for (srcId : revAdjList[id]) adjList[srcId].erase(id);
    let adj2 := (getAdj radj1 id).foldl
      (fun a srcId => setAdj a srcId (eraseId (getAdj a srcId) id)) adj1
    -- revAdjList[id].clear();
    let radj2 := setAdj radj1 id []
    { g with nodeMap := nm, adjList := adj2, revAdjList := radj2 }

/-- `Graph::getNodes()`: active nodes in insertion order. -/
def Graph.getNodes (g : Graph T) : List T :=
  g.nodes.filter (fun node => ((lookupNM g.nodeMap node).getD (false, 0)).1)

/-- `Graph::isConnected(src, dest)`: direct-edge test. -/
def Graph.isConnected (g : Graph T) (src dest : T) : Bool :=
  match lookupNM g.nodeMap src, lookupNM g.nodeMap dest with
  | some (_, srcId), some (_, destId) => decide (destId ∈ getAdj g.adjList srcId)
  | _, _ => false

/-- One `while`-iteration body of `removeNonReachable`'s traversal: pop `node`,
then for each `dest` of `adjList[node]` not yet visited, push it and mark it.
The stack is a list with its head as `back()`. -/
def reachStep (adj : List (List Nat)) (node : Nat) (sv : List Nat × List Nat) :
    List Nat × List Nat :=
  (getAdj adj node).foldl
    (fun sv dest => if dest ∈ sv.2 then sv else (dest :: sv.1, dest :: sv.2)) sv

/-- The `while (!stack.empty())` loop of `removeNonReachable`, with fuel. -/
def reachLoop (adj : List (List Nat)) : Nat → List Nat → List Nat → List Nat
  | 0, _, visited => visited
  | _ + 1, [], visited => visited
  | fuel + 1, node :: stack, visited =>
    let sv := reachStep adj node (stack, visited)
    reachLoop adj fuel sv.1 sv.2

/-- Fuel sufficient for `reachLoop`: each iteration pops one element, and the
total number of pushes is at most `|sources|` plus the total adjacency size. -/
def reachFuel (adj : List (List Nat)) (sources : List Nat) : Nat :=
  sources.length + adj.foldl (fun a l => a + l.length) 0 + 1

/-- The visited set computed by `removeNonReachable`'s traversal, seeded with
all source ids (the stack is seeded in push order, head = top of stack). -/
def Graph.reachableSet (g : Graph T) : List Nat :=
  reachLoop g.adjList (reachFuel g.adjList g.sources) g.sources.reverse g.sources

/-- `Graph::removeNonReachable()`: remove every currently active node whose id
was not visited.  Iteration order over `nodeMap` is the key insertion order;
the final state does not depend on it. -/
def Graph.removeNonReachable (g : Graph T) : Graph T :=
  let visited := g.reachableSet
  g.nodeMap.foldl
    (fun g' e =>
      match lookupNM g'.nodeMap e.1 with
      | some (true, id) => if id ∉ visited then g'.removeNode e.1 else g'
      | _ => g')
    g

/-- The recursive `dfs` helper of `topologicalSort`, with fuel.  State is
`(res, visited)`: `res` lists finished ids in finish order. -/
def dfsVisit (adj : List (List Nat)) : Nat → Nat → List Nat × List Nat → List Nat × List Nat
  | 0, _, st => st
  | fuel + 1, node, st =>
    let st1 := (getAdj adj node).foldl
      (fun s d => if d ∈ s.2 then s else dfsVisit adj fuel d s) (st.1, node :: st.2)
    (st1.1 ++ [node], st1.2)

/-- The post-order id sequence of `topologicalSort`'s source loop. -/
def Graph.dfsPost (g : Graph T) : List Nat × List Nat :=
  g.sources.foldl
    (fun st s => if s ∈ st.2 then st else dfsVisit g.adjList (g.nodes.length + 1) s st)
    ([], [])

/-- `Graph::topologicalSort(reverseOrder)`: `res.push_back(nodes[node])` is
modelled by recording ids and mapping through the node store at the end. -/
def Graph.topologicalSort [Inhabited T] (g : Graph T) (reverseOrder : Bool) : List T :=
  let res := (g.dfsPost).1.map (fun id => g.nodes.getD id default)
  if reverseOrder then res else res.reverse

/-- The mutating operations of the public interface. -/
inductive Op (T : Type) where
  | addNode (v : T) (isSource : Bool)
  | addEdge (src dest : T)
  | removeNode (v : T)
  | removeNonReachable

/-- Apply one operation. -/
def applyOp (g : Graph T) : Op T → Graph T
  | .addNode v s => g.addNode v s
  | .addEdge a b => g.addEdge a b
  | .removeNode v => g.removeNode v
  | .removeNonReachable => g.removeNonReachable

/-- Graph states reachable from the default-constructed graph through the
public interface. -/
inductive Constructed : Graph T → Prop
  | empty : Constructed (emptyGraph T)
  | step (g : Graph T) (op : Op T) : Constructed g → Constructed (applyOp g op)

/-- One forward edge. -/
def edgeRel (adj : List (List Nat)) (a b : Nat) : Prop := b ∈ getAdj adj a

/-- Forward reachability between ids. -/
def ReachFrom (adj : List (List Nat)) (a b : Nat) : Prop :=
  Relation.ReflTransGen (edgeRel adj) a b

/-- An id is reachable from the declared source-id set via forward edges. -/
def SourceReachable (g : Graph T) (i : Nat) : Prop :=
  ∃ s ∈ g.sources, ReachFrom g.adjList s i

/-- Every visited node outside the set `G` of grey (in-progress) nodes has all
its successors visited. -/
def ClosedExcept (adj : List (List Nat)) (G : Nat → Prop) (visited : List Nat) : Prop :=
  ∀ x ∈ visited, ¬ G x → ∀ d ∈ getAdj adj x, d ∈ visited

/-- In the finish list `res`, `d` occurs strictly before `x`. -/
def Before (res : List Nat) (d x : Nat) : Prop :=
  ∃ l1 l2, res = l1 ++ x :: l2 ∧ d ∈ l1

/-- Post-order invariant: every successor of a finished node is either grey or
finished earlier. -/
def POInv (adj : List (List Nat)) (G : Nat → Prop) (res : List Nat) : Prop :=
  ∀ x d, x ∈ res → d ∈ getAdj adj x → G d ∨ Before res d x

/-- Specification of one `dfs(node)` call at a given fuel: the visited set
grows by exactly the nodes appended to the finish list, stays duplicate-free
and bounded, becomes closed at `node`, and everything new is reachable from
`node`. -/
def BasicSpec (adj : List (List Nat)) (n fuel : Nat) : Prop :=
  ∀ (G : Nat → Prop) (node : Nat) (res visited : List Nat),
    node < n → node ∉ visited → (∀ x ∈ visited, x < n) → visited.Nodup →
    n ≤ fuel + visited.length → ClosedExcept adj G visited →
    (∀ x ∈ visited, x ∈ (dfsVisit adj fuel node (res, visited)).2) ∧
    node ∈ (dfsVisit adj fuel node (res, visited)).2 ∧
    (dfsVisit adj fuel node (res, visited)).2.Nodup ∧
    (∀ x ∈ (dfsVisit adj fuel node (res, visited)).2, x < n) ∧
    ClosedExcept adj G (dfsVisit adj fuel node (res, visited)).2 ∧
    (∃ Δ, (dfsVisit adj fuel node (res, visited)).1 = res ++ Δ ∧ Δ.Nodup ∧
      (∀ x, x ∈ Δ ↔ x ∈ (dfsVisit adj fuel node (res, visited)).2 ∧ x ∉ visited)) ∧
    (∀ x ∈ (dfsVisit adj fuel node (res, visited)).2, x ∈ visited ∨ ReachFrom adj node x)

/-- Specification of the loop over the successor list inside `dfs`. -/
def BasicListSpec (adj : List (List Nat)) (n fuel : Nat) : Prop :=
  ∀ (G : Nat → Prop) (l : List Nat) (res visited : List Nat),
    (∀ d ∈ l, d < n) → (∀ x ∈ visited, x < n) → visited.Nodup →
    n ≤ fuel + visited.length → ClosedExcept adj G visited →
    (∀ x ∈ visited, x ∈ (l.foldl
      (fun s d => if d ∈ s.2 then s else dfsVisit adj fuel d s) (res, visited)).2) ∧
    (∀ d ∈ l, d ∈ (l.foldl
      (fun s d => if d ∈ s.2 then s else dfsVisit adj fuel d s) (res, visited)).2) ∧
    (l.foldl (fun s d => if d ∈ s.2 then s else dfsVisit adj fuel d s)
      (res, visited)).2.Nodup ∧
    (∀ x ∈ (l.foldl (fun s d => if d ∈ s.2 then s else dfsVisit adj fuel d s)
      (res, visited)).2, x < n) ∧
    ClosedExcept adj G (l.foldl
      (fun s d => if d ∈ s.2 then s else dfsVisit adj fuel d s) (res, visited)).2 ∧
    (∃ Δ, (l.foldl (fun s d => if d ∈ s.2 then s else dfsVisit adj fuel d s)
        (res, visited)).1 = res ++ Δ ∧ Δ.Nodup ∧
      (∀ x, x ∈ Δ ↔ x ∈ (l.foldl
        (fun s d => if d ∈ s.2 then s else dfsVisit adj fuel d s) (res, visited)).2 ∧
        x ∉ visited)) ∧
    (∀ x ∈ (l.foldl (fun s d => if d ∈ s.2 then s else dfsVisit adj fuel d s)
      (res, visited)).2, x ∈ visited ∨ ∃ d ∈ l, ReachFrom adj d x)

/-- Post-order specification of one `dfs(node)` call: the partition of the
visited set into finished and grey nodes is maintained, and so is the
post-order invariant. -/
def PostSpec (adj : List (List Nat)) (n fuel : Nat) (P : Nat → Prop) : Prop :=
  ∀ (G : Nat → Prop) (node : Nat) (res visited : List Nat),
    node < n → node ∉ visited → (∀ x ∈ visited, x < n) → visited.Nodup →
    n ≤ fuel + visited.length → ClosedExcept adj G visited →
    P node →
    (∀ x, x ∈ visited ↔ x ∈ res ∨ G x) →
    (∀ x ∈ res, ¬ G x) →
    POInv adj G res →
    (∀ x, x ∈ (dfsVisit adj fuel node (res, visited)).2 ↔
      x ∈ (dfsVisit adj fuel node (res, visited)).1 ∨ G x) ∧
    (∀ x ∈ (dfsVisit adj fuel node (res, visited)).1, ¬ G x) ∧
    POInv adj G (dfsVisit adj fuel node (res, visited)).1

/-- Post-order specification of the successor loop. -/
def PostListSpec (adj : List (List Nat)) (n fuel : Nat) (P : Nat → Prop) : Prop :=
  ∀ (G : Nat → Prop) (l : List Nat) (res visited : List Nat),
    (∀ d ∈ l, d < n) → (∀ x ∈ visited, x < n) → visited.Nodup →
    n ≤ fuel + visited.length → ClosedExcept adj G visited →
    (∀ d ∈ l, P d) →
    (∀ x, x ∈ visited ↔ x ∈ res ∨ G x) →
    (∀ x ∈ res, ¬ G x) →
    POInv adj G res →
    (∀ x, x ∈ (l.foldl (fun s d => if d ∈ s.2 then s else dfsVisit adj fuel d s)
      (res, visited)).2 ↔ x ∈ (l.foldl
        (fun s d => if d ∈ s.2 then s else dfsVisit adj fuel d s) (res, visited)).1 ∨ G x) ∧
    (∀ x ∈ (l.foldl (fun s d => if d ∈ s.2 then s else dfsVisit adj fuel d s)
      (res, visited)).1, ¬ G x) ∧
    POInv adj G (l.foldl
      (fun s d => if d ∈ s.2 then s else dfsVisit adj fuel d s) (res, visited)).1

/-- Well-formedness of a graph state: the association list mirrors the node
store position by position (key `i` holds value `nodes[i]` with id `i`), node
values are distinct, the adjacency structures are indexed by the same id range,
forward and reverse adjacency are symmetric, and inactive nodes have no
incident edges. -/
structure WF (g : Graph T) : Prop where
  hkeysEq : g.nodeMap.map (fun e => e.1) = g.nodes
  hid : ∀ (i : Nat) (e : T × Bool × Nat), g.nodeMap[i]? = some e → e.2.2 = i
  hnodup : g.nodes.Nodup
  hadjlen : g.adjList.length = g.nodes.length
  hrevlen : g.revAdjList.length = g.nodes.length
  hadjbd : ∀ a d, d ∈ getAdj g.adjList a → d < g.nodes.length
  hrevbd : ∀ a d, d ∈ getAdj g.revAdjList a → d < g.nodes.length
  hsym : ∀ a b, b ∈ getAdj g.adjList a ↔ a ∈ getAdj g.revAdjList b
  hsrcbd : ∀ s ∈ g.sources, s < g.nodes.length
  hinact : ∀ (i : Nat) (e : T × Bool × Nat), g.nodeMap[i]? = some e → e.2.1 = false →
    getAdj g.adjList e.2.2 = [] ∧ getAdj g.revAdjList e.2.2 = []

/-! ## Helper lemmas on the container model -/

theorem mem_insertSorted (x a : Nat) (l : List Nat) :
    a ∈ insertSorted x l ↔ a = x ∨ a ∈ l := by
  induction l with
  | nil => simp [insertSorted]
  | cons y ys ih =>
    simp only [insertSorted]
    split
    · simp [List.mem_cons]
    · split
      · rename_i h1 h2
        subst h2
        simp [List.mem_cons]
      · simp [List.mem_cons, ih]
        tauto

theorem mem_eraseId (x a : Nat) (l : List Nat) :
    a ∈ eraseId l x ↔ a ∈ l ∧ a ≠ x := by
  simp [eraseId]

theorem length_setAdj (adj : List (List Nat)) (i : Nat) (l : List Nat) :
    (setAdj adj i l).length = adj.length := by
  simp [setAdj]

theorem getAdj_setAdj_self (adj : List (List Nat)) (i : Nat) (l : List Nat)
    (h : i < adj.length) : getAdj (setAdj adj i l) i = l := by
  simp [getAdj, setAdj, List.getD_eq_getElem?_getD, List.getElem?_set_self', h]

theorem getAdj_setAdj_ne (adj : List (List Nat)) (i j : Nat) (l : List Nat)
    (h : j ≠ i) : getAdj (setAdj adj i l) j = getAdj adj j := by
  simp [getAdj, setAdj, List.getD_eq_getElem?_getD, List.getElem?_set_ne (Ne.symm h)]

theorem getAdj_out_of_range (adj : List (List Nat)) (i : Nat)
    (h : adj.length ≤ i) : getAdj adj i = [] := by
  simp [getAdj, List.getD_eq_getElem?_getD, List.getElem?_eq_none h]

/-- Erasing `i` at position `d` viewed through membership at an arbitrary
position `b`; holds also when `d` is out of range (both sides are empty). -/
theorem mem_getAdj_eraseAt (r : List (List Nat)) (d i b x : Nat) :
    x ∈ getAdj (setAdj r d (eraseId (getAdj r d) i)) b ↔
      x ∈ getAdj r b ∧ (b = d → x ≠ i) := by
  by_cases hbd : b = d
  · subst hbd
    by_cases hr : b < r.length
    · rw [getAdj_setAdj_self r b _ hr, mem_eraseId]
      tauto
    · have h1 : getAdj r b = [] := getAdj_out_of_range _ _ (Nat.le_of_not_lt hr)
      have h2 : getAdj (setAdj r b (eraseId (getAdj r b) i)) b = [] := by
        rw [setAdj, List.set_eq_of_length_le (Nat.le_of_not_lt hr)]
        exact h1
      rw [h2, h1]
      simp
  · rw [getAdj_setAdj_ne r d b _ hbd]
    tauto

/-- Membership after the whole erase loop `for (d : D) r[d].erase(i)`. -/
theorem mem_foldl_erase (D : List Nat) (r : List (List Nat)) (i b x : Nat) :
    x ∈ getAdj (D.foldl (fun r d => setAdj r d (eraseId (getAdj r d) i)) r) b ↔
      x ∈ getAdj r b ∧ (b ∈ D → x ≠ i) := by
  induction D generalizing r with
  | nil => simp
  | cons d ds ih =>
    simp only [List.foldl_cons, ih, mem_getAdj_eraseAt, List.mem_cons]
    constructor
    · rintro ⟨⟨h1, h2⟩, h3⟩
      exact ⟨h1, fun h => h.elim (fun h => h2 h) (fun h => h3 h)⟩
    · rintro ⟨h1, h2⟩
      exact ⟨⟨h1, fun h => h2 (Or.inl h)⟩, fun h => h2 (Or.inr h)⟩

theorem length_foldl_erase (D : List Nat) (r : List (List Nat)) (i : Nat) :
    (D.foldl (fun r d => setAdj r d (eraseId (getAdj r d) i)) r).length = r.length := by
  induction D generalizing r with
  | nil => rfl
  | cons d ds ih => simp [List.foldl_cons, ih, length_setAdj]

theorem lookupNM_updNM (m : List (T × Bool × Nat)) (v w : T) (p : Bool × Nat) :
    lookupNM (updNM m v p) w = if w = v then some p else lookupNM m w := by
  induction m with
  | nil =>
    by_cases h : w = v <;> simp [updNM, lookupNM, h]
    exact fun h' => absurd h'.symm h
  | cons e rest ih =>
    simp only [updNM]
    by_cases hev : e.1 = v
    · by_cases hwv : w = v
      · subst hwv
        simp [lookupNM, hev]
      · have hvw : ¬ v = w := fun h => hwv h.symm
        simp [lookupNM, hev, hwv, hvw]
    · simp only [if_neg hev, lookupNM]
      by_cases hew : e.1 = w
      · have hwv : ¬ (w = v) := fun h => hev (h ▸ hew)
        simp [hew, hwv]
      · simp [hew, ih]

theorem updNM_absent (m : List (T × Bool × Nat)) (v : T) (p : Bool × Nat)
    (h : lookupNM m v = none) : updNM m v p = m ++ [(v, p)] := by
  induction m with
  | nil => simp [updNM]
  | cons e rest ih =>
    simp only [lookupNM] at h
    by_cases hev : e.1 = v
    · simp [hev] at h
    · simp only [updNM, if_neg hev, List.cons_append, List.cons.injEq, true_and]
      exact ih (by simpa [hev] using h)

theorem updNM_present (m : List (T × Bool × Nat)) (v : T) (p q : Bool × Nat)
    (h : lookupNM m v = some q) :
    ∃ j, m[j]? = some (v, q) ∧ updNM m v p = m.set j (v, p) := by
  induction m with
  | nil => simp [lookupNM] at h
  | cons e rest ih =>
    simp only [lookupNM] at h
    by_cases hev : e.1 = v
    · refine ⟨0, ?_, ?_⟩
      · simp only [if_pos hev] at h
        obtain ⟨e1, e2⟩ := e
        simp_all
      · simp [updNM, hev]
    · simp only [if_neg hev] at h
      obtain ⟨j, hj1, hj2⟩ := ih h
      exact ⟨j + 1, by simpa using hj1, by simp [updNM, if_neg hev, hj2]⟩

theorem lookupNM_append_left (m1 m2 : List (T × Bool × Nat)) (v : T) (q : Bool × Nat)
    (h : lookupNM m1 v = some q) : lookupNM (m1 ++ m2) v = some q := by
  induction m1 with
  | nil => simp [lookupNM] at h
  | cons e rest ih =>
    simp only [lookupNM] at h ⊢
    by_cases hev : e.1 = v
    · simpa [hev] using h
    · simp only [if_neg hev] at h ⊢
      exact ih h

theorem lookupNM_isSome_of_mem_keys (m : List (T × Bool × Nat)) (v : T)
    (h : v ∈ m.map (fun e => e.1)) : (lookupNM m v).isSome := by
  induction m with
  | nil => simp at h
  | cons e rest ih =>
    simp only [lookupNM]
    by_cases hev : e.1 = v
    · simp [hev]
    · simp only [List.map_cons, List.mem_cons] at h
      rcases h with h | h
      · exact absurd h.symm hev
      · simpa [hev] using ih h

theorem lookupNM_mem_keys (m : List (T × Bool × Nat)) (v : T) (q : Bool × Nat)
    (h : lookupNM m v = some q) : (v, q) ∈ m := by
  induction m with
  | nil => simp [lookupNM] at h
  | cons e rest ih =>
    simp only [lookupNM] at h
    by_cases hev : e.1 = v
    · simp only [if_pos hev] at h
      have he : e = (v, q) := by
        obtain ⟨e1, e2⟩ := e
        simp only at hev h
        simp [hev, Option.some.inj h]
      rw [he]
      exact List.mem_cons_self _ _
    · simp only [if_neg hev] at h
      exact List.mem_cons_of_mem _ (ih h)

theorem lookupNM_append (m1 m2 : List (T × Bool × Nat)) (v : T) :
    lookupNM (m1 ++ m2) v =
      match lookupNM m1 v with
      | some q => some q
      | none => lookupNM m2 v := by
  induction m1 with
  | nil => simp [lookupNM]
  | cons e rest ih =>
    by_cases hev : e.1 = v <;> simp [lookupNM, hev, ih]

theorem getAdj_concat (A : List (List Nat)) (a : Nat) :
    getAdj (A ++ [[]]) a = getAdj A a := by
  rcases Nat.lt_trichotomy a A.length with h | h | h
  · simp [getAdj, List.getD_eq_getElem?_getD, List.getElem?_append_left h]
  · subst h
    rw [getAdj_out_of_range A _ (le_refl _)]
    simp [getAdj, List.getD_eq_getElem?_getD, List.getElem?_concat_length]
  · rw [getAdj_out_of_range A _ (Nat.le_of_lt h),
      getAdj_out_of_range _ _ (by simpa using h)]

theorem set_self_of_getElem (l : List α) (j : Nat) (v : α) (h : l[j]? = some v) :
    l.set j v = l := by
  apply List.ext_getElem?
  intro i
  by_cases hij : i = j
  · subst hij
    rw [List.getElem?_set_self', h]
    simp [Option.map]
  · rw [List.getElem?_set_ne (fun he => hij he.symm)]

/-! ## Derived facts from well-formedness -/

theorem WF.nmLen {g : Graph T} (h : WF g) : g.nodeMap.length = g.nodes.length := by
  have := congrArg List.length h.hkeysEq
  simpa using this

theorem WF.keys_getElem {g : Graph T} (h : WF g) (i : Nat) :
    g.nodeMap[i]?.map (fun e => e.1) = g.nodes[i]? := by
  rw [← h.hkeysEq, List.getElem?_map]

theorem WF.lookup_entry {g : Graph T} (h : WF g) {v : T} {b : Bool} {i : Nat}
    (hl : lookupNM g.nodeMap v = some (b, i)) :
    g.nodeMap[i]? = some (v, b, i) ∧ g.nodes[i]? = some v := by
  have hmem : (v, b, i) ∈ g.nodeMap := lookupNM_mem_keys _ _ _ hl
  obtain ⟨j, hj, hje⟩ := List.mem_iff_getElem.mp hmem
  have hj' : g.nodeMap[j]? = some (v, b, i) := by
    rw [List.getElem?_eq_getElem hj, hje]
  have hij : i = j := h.hid j _ hj'
  subst hij
  refine ⟨hj', ?_⟩
  have := h.keys_getElem i
  rw [hj'] at this
  simpa using this.symm

theorem WF.lookup_of_nodes_getElem {g : Graph T} (h : WF g) {v : T} {i : Nat}
    (hv : g.nodes[i]? = some v) : ∃ b, lookupNM g.nodeMap v = some (b, i) := by
  have hkeys : v ∈ g.nodeMap.map (fun e => e.1) := by
    rw [h.hkeysEq]
    exact List.getElem?_mem hv
  obtain ⟨q, hq⟩ := Option.isSome_iff_exists.mp (lookupNM_isSome_of_mem_keys _ _ hkeys)
  obtain ⟨b, j⟩ := q
  have := (h.lookup_entry hq).2
  have hij : j = i := by
    have hi : i < g.nodes.length := (List.getElem?_eq_some_iff.mp hv).1
    have hjlt : j < g.nodes.length := (List.getElem?_eq_some_iff.mp this).1
    have : g.nodes[j] = g.nodes[i] := by
      have h1 := List.getElem?_eq_getElem hjlt ▸ this
      have h2 := List.getElem?_eq_getElem hi ▸ hv
      simp only [Option.some.injEq] at h1 h2
      rw [h1, h2]
    exact h.hnodup.getElem_inj_iff.mp this
  exact ⟨b, hij ▸ hq⟩

theorem WF.lookup_mem_nodes {g : Graph T} (h : WF g) {v : T} {b : Bool} {i : Nat}
    (hl : lookupNM g.nodeMap v = some (b, i)) : v ∈ g.nodes ∧ i < g.nodes.length := by
  have := (h.lookup_entry hl).2
  exact ⟨List.getElem?_mem this, (List.getElem?_eq_some_iff.mp this).1⟩

theorem WF.id_inj {g : Graph T} (h : WF g) {v w : T} {b b' : Bool} {i : Nat}
    (hv : lookupNM g.nodeMap v = some (b, i)) (hw : lookupNM g.nodeMap w = some (b', i)) :
    v = w := by
  have h1 := (h.lookup_entry hv).1
  have h2 := (h.lookup_entry hw).1
  rw [h1] at h2
  simpa using congrArg (fun o => o.map (fun e => e.1)) h2

theorem WF.lookup_none_iff {g : Graph T} (h : WF g) (v : T) :
    lookupNM g.nodeMap v = none ↔ v ∉ g.nodes := by
  constructor
  · intro hn hv
    obtain ⟨i, hi, hie⟩ := List.mem_iff_getElem.mp hv
    obtain ⟨b, hb⟩ := h.lookup_of_nodes_getElem (by rw [List.getElem?_eq_getElem hi, hie])
    rw [hn] at hb
    exact Option.noConfusion hb
  · intro hv
    cases hl : lookupNM g.nodeMap v with
    | none => rfl
    | some q =>
      obtain ⟨b, i⟩ := q
      exact absurd (h.lookup_mem_nodes hl).1 hv

/-! ## Shapes of the three `addNode` branches, and basic frame facts -/

theorem addNode_none_eq (g : Graph T) (v : T) (s : Bool)
    (hl : lookupNM g.nodeMap v = none) :
    g.addNode v s =
      { nodes := g.nodes ++ [v]
        nodeMap := g.nodeMap ++ [(v, (true, g.nodes.length))]
        adjList := g.adjList ++ [[]]
        revAdjList := g.revAdjList ++ [[]]
        sources := if s then insertSorted g.nodes.length g.sources else g.sources } := by
  simp [Graph.addNode, hl, updNM_absent _ _ _ hl]

theorem addNode_inactive_eq (g : Graph T) (v : T) (s : Bool) (i : Nat)
    (hl : lookupNM g.nodeMap v = some (false, i)) :
    g.addNode v s = { g with nodeMap := updNM g.nodeMap v (true, i) } := by
  simp [Graph.addNode, hl]

theorem addNode_active_eq (g : Graph T) (v : T) (s : Bool) (i : Nat)
    (hl : lookupNM g.nodeMap v = some (true, i)) :
    g.addNode v s = g := by
  simp [Graph.addNode, hl]

theorem addNode_adj (g : Graph T) (v : T) (s : Bool) (a : Nat) :
    getAdj (g.addNode v s).adjList a = getAdj g.adjList a := by
  cases hl : lookupNM g.nodeMap v with
  | none => rw [addNode_none_eq g v s hl]; exact getAdj_concat _ _
  | some q =>
    obtain ⟨b, i⟩ := q
    cases b
    · rw [addNode_inactive_eq g v s i hl]
    · rw [addNode_active_eq g v s i hl]

theorem addNode_radj (g : Graph T) (v : T) (s : Bool) (a : Nat) :
    getAdj (g.addNode v s).revAdjList a = getAdj g.revAdjList a := by
  cases hl : lookupNM g.nodeMap v with
  | none => rw [addNode_none_eq g v s hl]; exact getAdj_concat _ _
  | some q =>
    obtain ⟨b, i⟩ := q
    cases b
    · rw [addNode_inactive_eq g v s i hl]
    · rw [addNode_active_eq g v s i hl]

theorem addNode_sources_known (g : Graph T) (v : T) (s : Bool) (q : Bool × Nat)
    (hl : lookupNM g.nodeMap v = some q) : (g.addNode v s).sources = g.sources := by
  obtain ⟨b, i⟩ := q
  cases b
  · rw [addNode_inactive_eq g v s i hl]
  · rw [addNode_active_eq g v s i hl]

theorem addNode_false_sources (g : Graph T) (v : T) :
    (g.addNode v false).sources = g.sources := by
  cases hl : lookupNM g.nodeMap v with
  | none => rw [addNode_none_eq g v false hl]; simp
  | some q => exact addNode_sources_known g v false q hl

theorem lookup_addNode_known (g : Graph T) (v : T) (s : Bool) (b : Bool) (i : Nat)
    (hl : lookupNM g.nodeMap v = some (b, i)) :
    lookupNM (g.addNode v s).nodeMap v = some (true, i) := by
  cases b
  · rw [addNode_inactive_eq g v s i hl]
    simp [lookupNM_updNM]
  · rw [addNode_active_eq g v s i hl]
    exact hl

theorem lookup_addNode_new (g : Graph T) (v : T) (s : Bool)
    (hl : lookupNM g.nodeMap v = none) :
    lookupNM (g.addNode v s).nodeMap v = some (true, g.nodes.length) := by
  rw [addNode_none_eq g v s hl]
  simp [lookupNM_append, hl, lookupNM]

theorem lookup_addNode_other (g : Graph T) (v w : T) (s : Bool) (hw : w ≠ v) :
    lookupNM (g.addNode v s).nodeMap w = lookupNM g.nodeMap w := by
  cases hl : lookupNM g.nodeMap v with
  | none =>
    rw [addNode_none_eq g v s hl]
    rw [lookupNM_append]
    cases hlw : lookupNM g.nodeMap w with
    | none =>
      have hvw : ¬ v = w := fun he => hw he.symm
      simp [lookupNM, hvw]
    | some q => rfl
  | some q =>
    obtain ⟨b, i⟩ := q
    cases b
    · rw [addNode_inactive_eq g v s i hl]
      simp [lookupNM_updNM, hw]
    · rw [addNode_active_eq g v s i hl]

/-! ## Preservation of well-formedness -/

theorem WF_empty : WF (emptyGraph T) := by
  constructor <;> simp [emptyGraph, getAdj]

theorem WF_addNode (g : Graph T) (h : WF g) (v : T) (s : Bool) : WF (g.addNode v s) := by
  cases hl : lookupNM g.nodeMap v with
  | none =>
    have hvnotin : v ∉ g.nodes := (h.lookup_none_iff v).mp hl
    have hml : g.nodeMap.length = g.nodes.length := h.nmLen
    rw [addNode_none_eq g v s hl]
    constructor
    · simp [h.hkeysEq]
    · intro i e hie
      rcases Nat.lt_trichotomy i g.nodeMap.length with hi | hi | hi
      · rw [List.getElem?_append_left hi] at hie
        exact h.hid i e hie
      · subst hi
        rw [List.getElem?_concat_length] at hie
        cases hie
        simp only []
        omega
      · rw [List.getElem?_eq_none (by simpa using hi)] at hie
        exact Option.noConfusion hie
    · simp [List.Nodup.append h.hnodup (List.nodup_singleton v), hvnotin,
        List.disjoint_singleton]
    · simp [h.hadjlen]
    · simp [h.hrevlen]
    · intro a d hd
      rw [getAdj_concat] at hd
      have := h.hadjbd a d hd
      simp
      omega
    · intro a d hd
      rw [getAdj_concat] at hd
      have := h.hrevbd a d hd
      simp
      omega
    · intro a b
      rw [getAdj_concat, getAdj_concat]
      exact h.hsym a b
    · intro x hx
      simp only []
      by_cases hs : s = true
      · rw [if_pos hs] at hx
        rw [mem_insertSorted] at hx
        simp only [List.length_append, List.length_singleton]
        rcases hx with rfl | hx
        · omega
        · have := h.hsrcbd x hx
          omega
      · rw [if_neg hs] at hx
        have := h.hsrcbd x hx
        simp
        omega
    · intro i e hie hf
      rcases Nat.lt_trichotomy i g.nodeMap.length with hi | hi | hi
      · rw [List.getElem?_append_left hi] at hie
        have := h.hinact i e hie hf
        rw [getAdj_concat, getAdj_concat]
        exact this
      · subst hi
        rw [List.getElem?_concat_length] at hie
        cases hie
        simp at hf
      · rw [List.getElem?_eq_none (by simpa using hi)] at hie
        exact Option.noConfusion hie
  | some q =>
    obtain ⟨b, i⟩ := q
    cases b
    · obtain ⟨j, hj, hset⟩ := updNM_present g.nodeMap v (true, i) (false, i) hl
      have hij : i = j := by simpa using h.hid j _ hj
      subst hij
      have hjlt : i < g.nodeMap.length := (List.getElem?_eq_some_iff.mp hj).1
      have hnodes_i : g.nodes[i]? = some v := by
        have := h.keys_getElem i
        rw [hj] at this
        simpa using this.symm
      rw [addNode_inactive_eq g v s i hl]
      constructor
      · simp only [hset, List.map_set]
        rw [h.hkeysEq]
        exact set_self_of_getElem _ _ _ hnodes_i
      · intro i' e hie
        simp only [hset] at hie
        by_cases hii : i' = i
        · subst hii
          rw [List.getElem?_set_self'] at hie
          rw [List.getElem?_eq_getElem hjlt] at hie
          simp at hie
          subst hie
          rfl
        · rw [List.getElem?_set_ne (fun he => hii he.symm)] at hie
          exact h.hid i' e hie
      · exact h.hnodup
      · exact h.hadjlen
      · exact h.hrevlen
      · exact h.hadjbd
      · exact h.hrevbd
      · exact h.hsym
      · exact h.hsrcbd
      · intro i' e hie hf
        simp only [hset] at hie
        by_cases hii : i' = i
        · subst hii
          rw [List.getElem?_set_self'] at hie
          rw [List.getElem?_eq_getElem hjlt] at hie
          simp at hie
          subst hie
          simp at hf
        · rw [List.getElem?_set_ne (fun he => hii he.symm)] at hie
          exact h.hinact i' e hie hf
    · rw [addNode_active_eq g v s i hl]
      exact h

/-! ## `removeNode`: shape, adjacency characterization, preservation -/

theorem removeNode_none_eq (g : Graph T) (v : T) (hl : lookupNM g.nodeMap v = none) :
    g.removeNode v = g := by
  simp [Graph.removeNode, hl]

theorem removeNode_nodes (g : Graph T) (v : T) : (g.removeNode v).nodes = g.nodes := by
  cases hl : lookupNM g.nodeMap v with
  | none => rw [removeNode_none_eq g v hl]
  | some q => obtain ⟨b, i⟩ := q; simp [Graph.removeNode, hl]

theorem removeNode_sources (g : Graph T) (v : T) :
    (g.removeNode v).sources = g.sources := by
  cases hl : lookupNM g.nodeMap v with
  | none => rw [removeNode_none_eq g v hl]
  | some q => obtain ⟨b, i⟩ := q; simp [Graph.removeNode, hl]

theorem removeNode_nodeMap (g : Graph T) (v : T) (b : Bool) (i : Nat)
    (hl : lookupNM g.nodeMap v = some (b, i)) :
    (g.removeNode v).nodeMap = updNM g.nodeMap v (false, i) := by
  simp [Graph.removeNode, hl]

theorem lookup_removeNode_self (g : Graph T) (v : T) (b : Bool) (i : Nat)
    (hl : lookupNM g.nodeMap v = some (b, i)) :
    lookupNM (g.removeNode v).nodeMap v = some (false, i) := by
  rw [removeNode_nodeMap g v b i hl]
  simp [lookupNM_updNM]

theorem lookup_removeNode_other (g : Graph T) (v w : T) (hw : w ≠ v) :
    lookupNM (g.removeNode v).nodeMap w = lookupNM g.nodeMap w := by
  cases hl : lookupNM g.nodeMap v with
  | none => rw [removeNode_none_eq g v hl]
  | some q =>
    obtain ⟨b, i⟩ := q
    rw [removeNode_nodeMap g v b i hl]
    simp [lookupNM_updNM, hw]

theorem mem_setAdj_nil (A : List (List Nat)) (i : Nat) (hi : i < A.length) (a x : Nat) :
    x ∈ getAdj (setAdj A i []) a ↔ x ∈ getAdj A a ∧ a ≠ i := by
  by_cases hai : a = i
  · subst hai
    rw [getAdj_setAdj_self A a [] hi]
    simp
  · rw [getAdj_setAdj_ne A i a [] hai]
    tauto

theorem removeNode_adjList_length (g : Graph T) (v : T) :
    (g.removeNode v).adjList.length = g.adjList.length := by
  cases hl : lookupNM g.nodeMap v with
  | none => rw [removeNode_none_eq g v hl]
  | some q =>
    obtain ⟨b, i⟩ := q
    simp only [Graph.removeNode, hl]
    rw [length_foldl_erase, length_setAdj]

theorem removeNode_revAdjList_length (g : Graph T) (v : T) :
    (g.removeNode v).revAdjList.length = g.revAdjList.length := by
  cases hl : lookupNM g.nodeMap v with
  | none => rw [removeNode_none_eq g v hl]
  | some q =>
    obtain ⟨b, i⟩ := q
    simp only [Graph.removeNode, hl]
    rw [length_setAdj, length_foldl_erase]

theorem removeNode_adj_mem (g : Graph T) (h : WF g) (v : T) (b : Bool) (i : Nat)
    (hl : lookupNM g.nodeMap v = some (b, i)) (a x : Nat) :
    x ∈ getAdj (g.removeNode v).adjList a ↔
      x ∈ getAdj g.adjList a ∧ a ≠ i ∧ x ≠ i := by
  have hilt : i < g.adjList.length := by
    rw [h.hadjlen]
    exact (h.lookup_mem_nodes hl).2
  simp only [Graph.removeNode, hl]
  rw [mem_foldl_erase, mem_setAdj_nil _ _ hilt, mem_foldl_erase]
  constructor
  · rintro ⟨⟨hxa, hai⟩, himp⟩
    refine ⟨hxa, hai, ?_⟩
    intro hxi
    subst hxi
    have hair : a ∈ getAdj g.revAdjList x := (h.hsym a x).mp hxa
    exact himp ⟨hair, fun _ => hai⟩ rfl
  · rintro ⟨hxa, hai, hxi⟩
    exact ⟨⟨hxa, hai⟩, fun _ => hxi⟩

theorem removeNode_radj_mem (g : Graph T) (h : WF g) (v : T) (b : Bool) (i : Nat)
    (hl : lookupNM g.nodeMap v = some (b, i)) (a x : Nat) :
    x ∈ getAdj (g.removeNode v).revAdjList a ↔
      x ∈ getAdj g.revAdjList a ∧ a ≠ i ∧ x ≠ i := by
  have hilt : i < g.revAdjList.length := by
    rw [h.hrevlen]
    exact (h.lookup_mem_nodes hl).2
  have hilt1 : i <
      ((getAdj g.adjList i).foldl
        (fun r destId => setAdj r destId (eraseId (getAdj r destId) i))
        g.revAdjList).length := by
    rw [length_foldl_erase]
    exact hilt
  simp only [Graph.removeNode, hl]
  rw [mem_setAdj_nil _ _ hilt1, mem_foldl_erase]
  constructor
  · rintro ⟨⟨hxa, himp⟩, hai⟩
    refine ⟨hxa, hai, ?_⟩
    intro hxi
    subst hxi
    have had : a ∈ getAdj g.adjList x := (h.hsym x a).mpr hxa
    exact himp had rfl
  · rintro ⟨hxa, hai, hxi⟩
    exact ⟨⟨hxa, fun _ => hxi⟩, hai⟩

theorem WF_removeNode (g : Graph T) (h : WF g) (v : T) : WF (g.removeNode v) := by
  cases hl : lookupNM g.nodeMap v with
  | none => rw [removeNode_none_eq g v hl]; exact h
  | some q =>
    obtain ⟨b, i⟩ := q
    obtain ⟨j, hj, hset⟩ := updNM_present g.nodeMap v (false, i) (b, i) hl
    have hij : i = j := by simpa using h.hid j _ hj
    subst hij
    have hjlt : i < g.nodeMap.length := (List.getElem?_eq_some_iff.mp hj).1
    have hadjmem := removeNode_adj_mem g h v b i hl
    have hradjmem := removeNode_radj_mem g h v b i hl
    have hnm := removeNode_nodeMap g v b i hl
    have hnodes := removeNode_nodes g v
    constructor
    · rw [hnm, hset, hnodes]
      simp only [List.map_set]
      rw [h.hkeysEq]
      apply set_self_of_getElem
      have := h.keys_getElem i
      rw [hj] at this
      simpa using this.symm
    · intro i' e hie
      rw [hnm, hset] at hie
      by_cases hii : i' = i
      · subst hii
        rw [List.getElem?_set_self'] at hie
        rw [List.getElem?_eq_getElem hjlt] at hie
        simp at hie
        subst hie
        rfl
      · rw [List.getElem?_set_ne (fun he => hii he.symm)] at hie
        exact h.hid i' e hie
    · rw [hnodes]; exact h.hnodup
    · rw [removeNode_adjList_length, hnodes, h.hadjlen]
    · rw [removeNode_revAdjList_length, hnodes, h.hrevlen]
    · intro a d hd
      rw [hadjmem a d] at hd
      rw [hnodes]
      exact h.hadjbd a d hd.1
    · intro a d hd
      rw [hradjmem a d] at hd
      rw [hnodes]
      exact h.hrevbd a d hd.1
    · intro a c
      rw [hadjmem a c, hradjmem c a, h.hsym a c]
      tauto
    · rw [removeNode_sources, hnodes]
      exact h.hsrcbd
    · intro i' e hie hf
      rw [hnm, hset] at hie
      by_cases hii : i' = i
      · subst hii
        rw [List.getElem?_set_self'] at hie
        rw [List.getElem?_eq_getElem hjlt] at hie
        simp at hie
        subst hie
        constructor
        · apply List.eq_nil_iff_forall_not_mem.mpr
          intro x hx
          rw [hadjmem _ x] at hx
          exact hx.2.1 rfl
        · apply List.eq_nil_iff_forall_not_mem.mpr
          intro x hx
          rw [hradjmem _ x] at hx
          exact hx.2.1 rfl
      · rw [List.getElem?_set_ne (fun he => hii he.symm)] at hie
        have hold := h.hinact i' e hie hf
        have hne : e.2.2 ≠ i := by
          have := h.hid i' e hie
          rw [this]
          exact hii
        constructor
        · apply List.eq_nil_iff_forall_not_mem.mpr
          intro x hx
          rw [hadjmem e.2.2 x] at hx
          rw [hold.1] at hx
          exact absurd hx.1 (List.not_mem_nil x)
        · apply List.eq_nil_iff_forall_not_mem.mpr
          intro x hx
          rw [hradjmem e.2.2 x] at hx
          rw [hold.2] at hx
          exact absurd hx.1 (List.not_mem_nil x)

/-! ## `addEdge`: spec and preservation -/

theorem addEdge_nodeMap (g : Graph T) (src dest : T) :
    (g.addEdge src dest).nodeMap = ((g.addNode src false).addNode dest false).nodeMap := rfl

theorem addEdge_nodes (g : Graph T) (src dest : T) :
    (g.addEdge src dest).nodes = ((g.addNode src false).addNode dest false).nodes := rfl

theorem addEdge_sources (g : Graph T) (src dest : T) :
    (g.addEdge src dest).sources = g.sources := by
  show ((g.addNode src false).addNode dest false).sources = g.sources
  rw [addNode_false_sources, addNode_false_sources]

theorem lookup_g1_src (g : Graph T) (src dest : T) :
    ∃ sid, lookupNM ((g.addNode src false).addNode dest false).nodeMap src = some (true, sid) ∧
      ∀ b j, lookupNM g.nodeMap src = some (b, j) → sid = j := by
  have h1 : ∃ sid, lookupNM (g.addNode src false).nodeMap src = some (true, sid) ∧
      ∀ b j, lookupNM g.nodeMap src = some (b, j) → sid = j := by
    cases hl : lookupNM g.nodeMap src with
    | none =>
      refine ⟨g.nodes.length, lookup_addNode_new g src false hl, ?_⟩
      intro b j hj
      exact Option.noConfusion hj
    | some q =>
      obtain ⟨b, j⟩ := q
      refine ⟨j, lookup_addNode_known g src false b j hl, ?_⟩
      intro b' j' hj'
      simpa using congrArg (fun o => o.map Prod.snd) hj'
  obtain ⟨sid, hsid, hstable⟩ := h1
  by_cases hds : dest = src
  · subst hds
    exact ⟨sid, lookup_addNode_known _ dest false true sid hsid, hstable⟩
  · rw [← lookup_addNode_other (g.addNode src false) dest src false
      (fun he => hds he.symm)] at hsid
    exact ⟨sid, hsid, hstable⟩

theorem lookup_g1_dest (g : Graph T) (src dest : T) :
    ∃ did, lookupNM ((g.addNode src false).addNode dest false).nodeMap dest = some (true, did) ∧
      ∀ b j, lookupNM g.nodeMap dest = some (b, j) → did = j := by
  cases hl : lookupNM (g.addNode src false).nodeMap dest with
  | none =>
    refine ⟨(g.addNode src false).nodes.length,
      lookup_addNode_new (g.addNode src false) dest false hl, ?_⟩
    intro b j hj
    by_cases hds : dest = src
    · subst hds
      cases hl0 : lookupNM g.nodeMap dest with
      | none => rw [hl0] at hj; exact Option.noConfusion hj
      | some q =>
        obtain ⟨b0, j0⟩ := q
        rw [lookup_addNode_known g dest false b0 j0 hl0] at hl
        exact Option.noConfusion hl
    · rw [lookup_addNode_other g src dest false hds] at hl
      rw [hl] at hj
      exact Option.noConfusion hj
  | some q =>
    obtain ⟨b, j⟩ := q
    refine ⟨j, lookup_addNode_known (g.addNode src false) dest false b j hl, ?_⟩
    intro b' j' hj'
    by_cases hds : dest = src
    · subst hds
      rw [lookup_addNode_known g dest false b' j' hj'] at hl
      simpa using (congrArg (fun o => o.map Prod.snd) hl).symm
    · rw [lookup_addNode_other g src dest false hds] at hl
      rw [hj'] at hl
      simpa using (congrArg (fun o => o.map Prod.snd) hl).symm

theorem addEdge_spec (g : Graph T) (h : WF g) (src dest : T) :
    ∃ sid did,
      lookupNM (g.addEdge src dest).nodeMap src = some (true, sid) ∧
      lookupNM (g.addEdge src dest).nodeMap dest = some (true, did) ∧
      (∀ b j, lookupNM g.nodeMap src = some (b, j) → sid = j) ∧
      (∀ b j, lookupNM g.nodeMap dest = some (b, j) → did = j) ∧
      (∀ a x, x ∈ getAdj (g.addEdge src dest).adjList a ↔
        x ∈ getAdj g.adjList a ∨ (a = sid ∧ x = did)) ∧
      (∀ a x, x ∈ getAdj (g.addEdge src dest).revAdjList a ↔
        x ∈ getAdj g.revAdjList a ∨ (a = did ∧ x = sid)) := by
  have h1 : WF ((g.addNode src false).addNode dest false) :=
    WF_addNode _ (WF_addNode _ h src false) dest false
  obtain ⟨sid, hsid, hsstable⟩ := lookup_g1_src g src dest
  obtain ⟨did, hdid, hdstable⟩ := lookup_g1_dest g src dest
  have hidOfs : ((g.addNode src false).addNode dest false).idOf src = sid := by
    simp [Graph.idOf, hsid]
  have hidOfd : ((g.addNode src false).addNode dest false).idOf dest = did := by
    simp [Graph.idOf, hdid]
  have hsidlt : sid < ((g.addNode src false).addNode dest false).adjList.length := by
    rw [h1.hadjlen]
    exact (h1.lookup_mem_nodes hsid).2
  have hdidlt : did < ((g.addNode src false).addNode dest false).revAdjList.length := by
    rw [h1.hrevlen]
    exact (h1.lookup_mem_nodes hdid).2
  refine ⟨sid, did, hsid, hdid, hsstable, hdstable, ?_, ?_⟩
  · intro a x
    show x ∈ getAdj (setAdj _ (Graph.idOf _ src)
      (insertSorted (Graph.idOf _ dest) (getAdj _ (Graph.idOf _ src)))) a ↔ _
    rw [hidOfs, hidOfd]
    by_cases ha : a = sid
    · subst ha
      rw [getAdj_setAdj_self _ _ _ hsidlt, mem_insertSorted]
      rw [addNode_adj, addNode_adj]
      tauto
    · rw [getAdj_setAdj_ne _ _ _ _ ha, addNode_adj, addNode_adj]
      tauto
  · intro a x
    show x ∈ getAdj (setAdj _ (Graph.idOf _ dest)
      (insertSorted (Graph.idOf _ src) (getAdj _ (Graph.idOf _ dest)))) a ↔ _
    rw [hidOfs, hidOfd]
    by_cases ha : a = did
    · subst ha
      rw [getAdj_setAdj_self _ _ _ hdidlt, mem_insertSorted]
      rw [addNode_radj, addNode_radj]
      tauto
    · rw [getAdj_setAdj_ne _ _ _ _ ha, addNode_radj, addNode_radj]
      tauto

theorem WF_addEdge (g : Graph T) (h : WF g) (src dest : T) : WF (g.addEdge src dest) := by
  have h1 : WF ((g.addNode src false).addNode dest false) :=
    WF_addNode _ (WF_addNode _ h src false) dest false
  obtain ⟨sid, hsid, hsstable⟩ := lookup_g1_src g src dest
  obtain ⟨did, hdid, hdstable⟩ := lookup_g1_dest g src dest
  have hidOfs : ((g.addNode src false).addNode dest false).idOf src = sid := by
    simp [Graph.idOf, hsid]
  have hidOfd : ((g.addNode src false).addNode dest false).idOf dest = did := by
    simp [Graph.idOf, hdid]
  have hsidlt : sid < ((g.addNode src false).addNode dest false).nodes.length :=
    (h1.lookup_mem_nodes hsid).2
  have hdidlt : did < ((g.addNode src false).addNode dest false).nodes.length :=
    (h1.lookup_mem_nodes hdid).2
  have hsidltA : sid < ((g.addNode src false).addNode dest false).adjList.length := by
    rw [h1.hadjlen]; exact hsidlt
  have hdidltR : did < ((g.addNode src false).addNode dest false).revAdjList.length := by
    rw [h1.hrevlen]; exact hdidlt
  have hadjmem : ∀ a x, x ∈ getAdj (g.addEdge src dest).adjList a ↔
      x ∈ getAdj ((g.addNode src false).addNode dest false).adjList a ∨ (a = sid ∧ x = did) := by
    intro a x
    show x ∈ getAdj (setAdj _ (Graph.idOf _ src)
      (insertSorted (Graph.idOf _ dest) (getAdj _ (Graph.idOf _ src)))) a ↔ _
    rw [hidOfs, hidOfd]
    by_cases ha : a = sid
    · subst ha
      rw [getAdj_setAdj_self _ _ _ hsidltA, mem_insertSorted]
      tauto
    · rw [getAdj_setAdj_ne _ _ _ _ ha]
      tauto
  have hradjmem : ∀ a x, x ∈ getAdj (g.addEdge src dest).revAdjList a ↔
      x ∈ getAdj ((g.addNode src false).addNode dest false).revAdjList a ∨ (a = did ∧ x = sid) := by
    intro a x
    show x ∈ getAdj (setAdj _ (Graph.idOf _ dest)
      (insertSorted (Graph.idOf _ src) (getAdj _ (Graph.idOf _ dest)))) a ↔ _
    rw [hidOfs, hidOfd]
    by_cases ha : a = did
    · subst ha
      rw [getAdj_setAdj_self _ _ _ hdidltR, mem_insertSorted]
      tauto
    · rw [getAdj_setAdj_ne _ _ _ _ ha]
      tauto
  have hALen : (g.addEdge src dest).adjList.length =
      ((g.addNode src false).addNode dest false).adjList.length := length_setAdj _ _ _
  have hRLen : (g.addEdge src dest).revAdjList.length =
      ((g.addNode src false).addNode dest false).revAdjList.length := length_setAdj _ _ _
  constructor
  · rw [addEdge_nodeMap, addEdge_nodes]
    exact h1.hkeysEq
  · rw [addEdge_nodeMap]
    exact h1.hid
  · rw [addEdge_nodes]
    exact h1.hnodup
  · rw [hALen, addEdge_nodes]
    exact h1.hadjlen
  · rw [hRLen, addEdge_nodes]
    exact h1.hrevlen
  · intro a d hd
    rw [hadjmem a d] at hd
    rw [addEdge_nodes]
    rcases hd with hd | ⟨_, rfl⟩
    · exact h1.hadjbd a d hd
    · exact hdidlt
  · intro a d hd
    rw [hradjmem a d] at hd
    rw [addEdge_nodes]
    rcases hd with hd | ⟨_, rfl⟩
    · exact h1.hrevbd a d hd
    · exact hsidlt
  · intro a c
    rw [hadjmem a c, hradjmem c a, h1.hsym a c]
    tauto
  · rw [addEdge_sources, addEdge_nodes]
    intro x hx
    have h2 := h.hsrcbd x hx
    have : g.nodes.length ≤ ((g.addNode src false).addNode dest false).nodes.length := by
      have hm1 : g.nodes.length ≤ (g.addNode src false).nodes.length := by
        cases hl : lookupNM g.nodeMap src with
        | none => rw [addNode_none_eq g src false hl]; simp
        | some q =>
          obtain ⟨b, i⟩ := q
          cases b
          · rw [addNode_inactive_eq g src false i hl]
          · rw [addNode_active_eq g src false i hl]
      have hm2 : (g.addNode src false).nodes.length ≤
          ((g.addNode src false).addNode dest false).nodes.length := by
        cases hl : lookupNM (g.addNode src false).nodeMap dest with
        | none => rw [addNode_none_eq _ dest false hl]; simp
        | some q =>
          obtain ⟨b, i⟩ := q
          cases b
          · rw [addNode_inactive_eq _ dest false i hl]
          · rw [addNode_active_eq _ dest false i hl]
      omega
    omega
  · intro i e hie hf
    rw [addEdge_nodeMap] at hie
    have hold := h1.hinact i e hie hf
    have hids : e.2.2 ≠ sid := by
      intro hes
      have h2 := (h1.lookup_entry hsid).1
      have h3 := h1.hid i e hie
      rw [hes] at h3
      subst h3
      rw [hie] at h2
      cases h2
      simp at hf
    have hidd : e.2.2 ≠ did := by
      intro hed
      have h2 := (h1.lookup_entry hdid).1
      have h3 := h1.hid i e hie
      rw [hed] at h3
      subst h3
      rw [hie] at h2
      cases h2
      simp at hf
    constructor
    · apply List.eq_nil_iff_forall_not_mem.mpr
      intro x hx
      rw [hadjmem _ x] at hx
      rcases hx with hx | ⟨he, _⟩
      · rw [hold.1] at hx
        exact absurd hx (List.not_mem_nil x)
      · exact hids he
    · apply List.eq_nil_iff_forall_not_mem.mpr
      intro x hx
      rw [hradjmem _ x] at hx
      rcases hx with hx | ⟨he, _⟩
      · rw [hold.2] at hx
        exact absurd hx (List.not_mem_nil x)
      · exact hidd he

/-! ## `removeNonReachable`: preservation, and preservation along any op -/

theorem foldl_WF (f : Graph T → α → Graph T)
    (hf : ∀ g a, WF g → WF (f g a)) (l : List α) (g : Graph T) (h : WF g) :
    WF (l.foldl f g) := by
  induction l generalizing g with
  | nil => exact h
  | cons e rest ih => exact ih (f g e) (hf g e h)

theorem WF_removeNonReachable (g : Graph T) (h : WF g) : WF g.removeNonReachable := by
  apply foldl_WF
  · intro g' e hg'
    cases hl : lookupNM g'.nodeMap e.1 with
    | none => exact hg'
    | some q =>
      obtain ⟨b, i⟩ := q
      cases b
      · exact hg'
      · by_cases hvis : i ∉ g.reachableSet
        · simpa [hl, hvis] using WF_removeNode g' hg' e.1
        · simpa [hl, hvis] using hg'
  · exact h

theorem WF_applyOp (g : Graph T) (h : WF g) (op : Op T) : WF (applyOp g op) := by
  cases op with
  | addNode v s => exact WF_addNode g h v s
  | addEdge a b => exact WF_addEdge g h a b
  | removeNode v => exact WF_removeNode g h v
  | removeNonReachable => exact WF_removeNonReachable g h

theorem WF_constructed (g : Graph T) (h : Constructed g) : WF g := by
  induction h with
  | empty => exact WF_empty
  | step g' op _ ih => exact WF_applyOp g' ih op

/-! ## Id stability under every operation -/

theorem lookup_stable_addNode (g : Graph T) (w : T) (s : Bool) (v : T) (b : Bool) (i : Nat)
    (hl : lookupNM g.nodeMap v = some (b, i)) :
    ∃ b', lookupNM (g.addNode w s).nodeMap v = some (b', i) := by
  by_cases hvw : v = w
  · subst hvw
    exact ⟨true, lookup_addNode_known g v s b i hl⟩
  · rw [lookup_addNode_other g w v s hvw]
    exact ⟨b, hl⟩

theorem lookup_stable_addEdge (g : Graph T) (a c : T) (v : T) (b : Bool) (i : Nat)
    (hl : lookupNM g.nodeMap v = some (b, i)) :
    ∃ b', lookupNM (g.addEdge a c).nodeMap v = some (b', i) := by
  rw [addEdge_nodeMap]
  obtain ⟨b1, hb1⟩ := lookup_stable_addNode g a false v b i hl
  exact lookup_stable_addNode (g.addNode a false) c false v b1 i hb1

theorem lookup_stable_removeNode (g : Graph T) (w : T) (v : T) (b : Bool) (i : Nat)
    (hl : lookupNM g.nodeMap v = some (b, i)) :
    ∃ b', lookupNM (g.removeNode w).nodeMap v = some (b', i) := by
  by_cases hvw : v = w
  · subst hvw
    exact ⟨false, lookup_removeNode_self g v b i hl⟩
  · rw [lookup_removeNode_other g w v hvw]
    exact ⟨b, hl⟩

theorem foldl_lookup_stable {α : Type} (f : Graph T → α → Graph T)
    (hf : ∀ g' a (v : T) (b : Bool) (i : Nat), lookupNM g'.nodeMap v = some (b, i) →
      ∃ b', lookupNM (f g' a).nodeMap v = some (b', i))
    (L : List α) (g' : Graph T) (v : T) (b : Bool) (i : Nat)
    (hl : lookupNM g'.nodeMap v = some (b, i)) :
    ∃ b', lookupNM (L.foldl f g').nodeMap v = some (b', i) := by
  induction L generalizing g' b with
  | nil => exact ⟨b, hl⟩
  | cons e rest ih =>
    obtain ⟨b1, hb1⟩ := hf g' e v b i hl
    exact ih (f g' e) b1 hb1

theorem lookup_stable_removeNonReachable (g : Graph T) (v : T) (b : Bool) (i : Nat)
    (hl : lookupNM g.nodeMap v = some (b, i)) :
    ∃ b', lookupNM g.removeNonReachable.nodeMap v = some (b', i) := by
  apply foldl_lookup_stable _ _ g.nodeMap g v b i hl
  intro g' a v' b' i' hl'
  cases hle : lookupNM g'.nodeMap a.1 with
  | none =>
    simp only [hle]
    exact ⟨b', hl'⟩
  | some q =>
    obtain ⟨bq, iq⟩ := q
    cases bq
    · simp only [hle]
      exact ⟨b', hl'⟩
    · by_cases hv : iq ∉ g.reachableSet
      · simp only [hle, if_pos hv]
        exact lookup_stable_removeNode g' a.1 v' b' i' hl'
      · simp only [hle, if_neg hv]
        exact ⟨b', hl'⟩

theorem lookup_stable_applyOp (g : Graph T) (op : Op T) (v : T) (b : Bool) (i : Nat)
    (hl : lookupNM g.nodeMap v = some (b, i)) :
    ∃ b', lookupNM (applyOp g op).nodeMap v = some (b', i) := by
  cases op with
  | addNode w s => exact lookup_stable_addNode g w s v b i hl
  | addEdge a c => exact lookup_stable_addEdge g a c v b i hl
  | removeNode w => exact lookup_stable_removeNode g w v b i hl
  | removeNonReachable => exact lookup_stable_removeNonReachable g v b i hl

theorem WF.ids_range {g : Graph T} (h : WF g) :
    g.nodeMap.map (fun e => e.2.2) = List.range g.nodes.length := by
  apply List.ext_getElem?
  intro i
  rw [List.getElem?_map]
  rcases Nat.lt_or_ge i g.nodeMap.length with hi | hi
  · have hment : g.nodeMap[i]? = some g.nodeMap[i] := List.getElem?_eq_getElem hi
    have hide := h.hid i _ hment
    rw [hment, List.getElem?_range (by rw [← h.nmLen]; exact hi)]
    simpa using hide
  · have h2 : (List.range g.nodes.length)[i]? = none := by
      apply List.getElem?_eq_none
      have := h.nmLen
      simp only [List.length_range]
      omega
    rw [List.getElem?_eq_none hi, h2]
    rfl

/-! ## Exact adjacency lists after `addEdge` -/

theorem addEdge_adj_lists (g : Graph T) (h : WF g) (src dest : T) :
    ∃ sid did,
      lookupNM (g.addEdge src dest).nodeMap src = some (true, sid) ∧
      lookupNM (g.addEdge src dest).nodeMap dest = some (true, did) ∧
      (∀ b j, lookupNM g.nodeMap src = some (b, j) → sid = j) ∧
      (∀ b j, lookupNM g.nodeMap dest = some (b, j) → did = j) ∧
      (sid = did ↔ src = dest) ∧
      getAdj (g.addEdge src dest).adjList sid = insertSorted did (getAdj g.adjList sid) ∧
      getAdj (g.addEdge src dest).revAdjList did = insertSorted sid (getAdj g.revAdjList did) ∧
      (∀ a, a ≠ sid → getAdj (g.addEdge src dest).adjList a = getAdj g.adjList a) ∧
      (∀ a, a ≠ did → getAdj (g.addEdge src dest).revAdjList a = getAdj g.revAdjList a) := by
  have h1 : WF ((g.addNode src false).addNode dest false) :=
    WF_addNode _ (WF_addNode _ h src false) dest false
  obtain ⟨sid, hsid, hsstable⟩ := lookup_g1_src g src dest
  obtain ⟨did, hdid, hdstable⟩ := lookup_g1_dest g src dest
  have hidOfs : ((g.addNode src false).addNode dest false).idOf src = sid := by
    simp [Graph.idOf, hsid]
  have hidOfd : ((g.addNode src false).addNode dest false).idOf dest = did := by
    simp [Graph.idOf, hdid]
  have hsidltA : sid < ((g.addNode src false).addNode dest false).adjList.length := by
    rw [h1.hadjlen]
    exact (h1.lookup_mem_nodes hsid).2
  have hdidltR : did < ((g.addNode src false).addNode dest false).revAdjList.length := by
    rw [h1.hrevlen]
    exact (h1.lookup_mem_nodes hdid).2
  refine ⟨sid, did, hsid, hdid, hsstable, hdstable, ?_, ?_, ?_, ?_, ?_⟩
  · constructor
    · intro hsd
      subst hsd
      exact h1.id_inj hsid hdid
    · intro hsd
      subst hsd
      rw [hsid] at hdid
      simpa using congrArg (fun o => o.map Prod.snd) hdid
  · show getAdj (setAdj _ (Graph.idOf _ src)
      (insertSorted (Graph.idOf _ dest) (getAdj _ (Graph.idOf _ src)))) sid = _
    rw [hidOfs, hidOfd, getAdj_setAdj_self _ _ _ hsidltA, addNode_adj, addNode_adj]
  · show getAdj (setAdj _ (Graph.idOf _ dest)
      (insertSorted (Graph.idOf _ src) (getAdj _ (Graph.idOf _ dest)))) did = _
    rw [hidOfs, hidOfd, getAdj_setAdj_self _ _ _ hdidltR, addNode_radj, addNode_radj]
  · intro a ha
    show getAdj (setAdj _ (Graph.idOf _ src)
      (insertSorted (Graph.idOf _ dest) (getAdj _ (Graph.idOf _ src)))) a = _
    rw [hidOfs, hidOfd, getAdj_setAdj_ne _ _ _ _ ha, addNode_adj, addNode_adj]
  · intro a ha
    show getAdj (setAdj _ (Graph.idOf _ dest)
      (insertSorted (Graph.idOf _ src) (getAdj _ (Graph.idOf _ dest)))) a = _
    rw [hidOfs, hidOfd, getAdj_setAdj_ne _ _ _ _ ha, addNode_radj, addNode_radj]

/-! ## Claim theorems: structural claims -/

/-- C3: adjacency symmetry is an invariant of every state reachable from the
empty graph through the public operations: `dest ∈ adjacency[src]` iff
`src ∈ reverseAdjacency[dest]`. -/
theorem claim3_adjacency_symmetry (g : Graph T) (hc : Constructed g) (src dest : Nat) :
    dest ∈ getAdj g.adjList src ↔ src ∈ getAdj g.revAdjList dest :=
  (WF_constructed g hc).hsym src dest

theorem claim3_adjacency_symmetry_witness :
    1 ∈ getAdj ((emptyGraph Nat).addEdge 0 1).adjList 0 ↔
      0 ∈ getAdj ((emptyGraph Nat).addEdge 0 1).revAdjList 1 :=
  claim3_adjacency_symmetry ((emptyGraph Nat).addEdge 0 1)
    (Constructed.step _ (Op.addEdge 0 1) Constructed.empty) 0 1

/-- C4: ids are assigned monotonically starting at 0 (the id stored in the
`k`-th inserted record is `k`), a given id never denotes two different values,
and the id assigned to a value is unchanged by every further operation. -/
theorem claim4_id_stability (g : Graph T) (hc : Constructed g) :
    g.nodeMap.map (fun e => e.2.2) = List.range g.nodes.length ∧
    (∀ (v w : T) (bv bw : Bool) (i : Nat), lookupNM g.nodeMap v = some (bv, i) →
      lookupNM g.nodeMap w = some (bw, i) → v = w) ∧
    (∀ (op : Op T) (v : T) (b : Bool) (i : Nat), lookupNM g.nodeMap v = some (b, i) →
      ∃ b', lookupNM (applyOp g op).nodeMap v = some (b', i)) := by
  have h := WF_constructed g hc
  refine ⟨h.ids_range, ?_, ?_⟩
  · intro v w bv bw i hv hw
    exact h.id_inj hv hw
  · intro op v b i hl
    exact lookup_stable_applyOp g op v b i hl

theorem claim4_id_stability_witness :
    (((emptyGraph Nat).addEdge 0 1).nodeMap.map (fun e => e.2.2) =
      List.range ((emptyGraph Nat).addEdge 0 1).nodes.length) ∧
    lookupNM ((emptyGraph Nat).addEdge 0 1).nodeMap 0 = some (true, 0) := by
  refine ⟨(claim4_id_stability ((emptyGraph Nat).addEdge 0 1)
    (Constructed.step _ (Op.addEdge 0 1) Constructed.empty)).1, by decide⟩

/-- C5: immediately after `removeNode(v)` for a known value `v`, `v` is
connected to nothing and nothing is connected to `v`, and `v` is not reported
by `getNodes()`. -/
theorem claim5_removal_isolates (g : Graph T) (hc : Constructed g) (v : T)
    (b : Bool) (i : Nat) (hl : lookupNM g.nodeMap v = some (b, i)) :
    (∀ x, (g.removeNode v).isConnected v x = false ∧
      (g.removeNode v).isConnected x v = false) ∧
    v ∉ (g.removeNode v).getNodes := by
  have h := WF_constructed g hc
  have hadjmem := removeNode_adj_mem g h v b i hl
  have hlv := lookup_removeNode_self g v b i hl
  constructor
  · intro x
    constructor
    · cases hlx : lookupNM (g.removeNode v).nodeMap x with
      | none => simp [Graph.isConnected, hlv, hlx]
      | some q =>
        obtain ⟨bx, ix⟩ := q
        simp [Graph.isConnected, hlv, hlx, hadjmem]
    · cases hlx : lookupNM (g.removeNode v).nodeMap x with
      | none => simp [Graph.isConnected, hlv, hlx]
      | some q =>
        obtain ⟨bx, ix⟩ := q
        simp [Graph.isConnected, hlv, hlx, hadjmem]
  · intro hmem
    rw [Graph.getNodes, List.mem_filter] at hmem
    rw [hlv] at hmem
    simp at hmem

theorem claim5_removal_isolates_witness :
    lookupNM ((emptyGraph Nat).addEdge 0 1).nodeMap 0 = some (true, 0) ∧
    (((emptyGraph Nat).addEdge 0 1).removeNode 0).isConnected 0 1 = false ∧
    (((emptyGraph Nat).addEdge 0 1).removeNode 0).isConnected 1 0 = false ∧
    0 ∉ (((emptyGraph Nat).addEdge 0 1).removeNode 0).getNodes := by
  have hc : Constructed ((emptyGraph Nat).addEdge 0 1) :=
    Constructed.step _ (Op.addEdge 0 1) Constructed.empty
  have h5 := claim5_removal_isolates ((emptyGraph Nat).addEdge 0 1) hc 0 true 0 (by decide)
  exact ⟨by decide, (h5.1 1).1, (h5.1 1).2, h5.2⟩

/-- C6: removing a known node and re-adding the same value yields an active
node with its original id and empty forward and reverse adjacency sets. -/
theorem claim6_reinsertion_no_edges (g : Graph T) (hc : Constructed g) (v : T)
    (b : Bool) (i : Nat) (hl : lookupNM g.nodeMap v = some (b, i)) (s : Bool) :
    lookupNM ((g.removeNode v).addNode v s).nodeMap v = some (true, i) ∧
    v ∈ ((g.removeNode v).addNode v s).getNodes ∧
    getAdj ((g.removeNode v).addNode v s).adjList i = [] ∧
    getAdj ((g.removeNode v).addNode v s).revAdjList i = [] := by
  have h := WF_constructed g hc
  have h' : WF (g.removeNode v) := WF_removeNode g h v
  have hlv' : lookupNM (g.removeNode v).nodeMap v = some (false, i) :=
    lookup_removeNode_self g v b i hl
  have hentry := (h'.lookup_entry hlv').1
  have hempty := h'.hinact i (v, false, i) hentry rfl
  have hlook : lookupNM ((g.removeNode v).addNode v s).nodeMap v = some (true, i) :=
    lookup_addNode_known (g.removeNode v) v s false i hlv'
  refine ⟨hlook, ?_, ?_, ?_⟩
  · rw [Graph.getNodes, List.mem_filter, hlook]
    refine ⟨?_, rfl⟩
    rw [addNode_inactive_eq (g.removeNode v) v s i hlv', removeNode_nodes]
    exact (h.lookup_mem_nodes hl).1
  · rw [addNode_adj]
    exact hempty.1
  · rw [addNode_radj]
    exact hempty.2

theorem claim6_reinsertion_no_edges_witness :
    lookupNM ((emptyGraph Nat).addEdge 0 1).nodeMap 0 = some (true, 0) ∧
    lookupNM ((((emptyGraph Nat).addEdge 0 1).removeNode 0).addNode 0 false).nodeMap 0 =
      some (true, 0) ∧
    getAdj ((((emptyGraph Nat).addEdge 0 1).removeNode 0).addNode 0 false).adjList 0 = [] := by
  have hc : Constructed ((emptyGraph Nat).addEdge 0 1) :=
    Constructed.step _ (Op.addEdge 0 1) Constructed.empty
  have h6 := claim6_reinsertion_no_edges ((emptyGraph Nat).addEdge 0 1) hc 0 true 0
    (by decide) false
  exact ⟨by decide, h6.1, h6.2.2.1⟩

/-- C8: `removeNode` on a value the graph has never seen returns the state
unchanged, and `isConnected` involving an unknown value is `false`. -/
theorem claim8_unknown_degrades (g : Graph T) (v : T)
    (hl : lookupNM g.nodeMap v = none) :
    g.removeNode v = g ∧
    ∀ w, g.isConnected v w = false ∧ g.isConnected w v = false := by
  refine ⟨removeNode_none_eq g v hl, ?_⟩
  intro w
  constructor
  · cases hlw : lookupNM g.nodeMap w with
    | none => simp [Graph.isConnected, hl, hlw]
    | some q =>
      obtain ⟨bw, iw⟩ := q
      simp [Graph.isConnected, hl, hlw]
  · cases hlw : lookupNM g.nodeMap w with
    | none => simp [Graph.isConnected, hl, hlw]
    | some q =>
      obtain ⟨bw, iw⟩ := q
      simp [Graph.isConnected, hl, hlw]

theorem claim8_unknown_degrades_witness :
    lookupNM ((emptyGraph Nat).addNode 5 false).nodeMap 7 = none ∧
    ((emptyGraph Nat).addNode 5 false).removeNode 7 = (emptyGraph Nat).addNode 5 false ∧
    ((emptyGraph Nat).addNode 5 false).isConnected 7 5 = false := by
  have h8 := claim8_unknown_degrades ((emptyGraph Nat).addNode 5 false) 7 (by decide)
  exact ⟨by decide, h8.1, (h8.2 5).1⟩

/-- C9: once a value is known to the graph, `addNode(v, isSource := true)`
leaves the source set unchanged: the `isSource` flag is honored only on the
very first insertion. -/
theorem claim9_source_only_first_insertion (g : Graph T) (v : T) (q : Bool × Nat)
    (hl : lookupNM g.nodeMap v = some q) :
    (g.addNode v true).sources = g.sources :=
  addNode_sources_known g v true q hl

theorem claim9_source_only_first_insertion_witness :
    lookupNM ((emptyGraph Nat).addEdge 0 1).nodeMap 0 = some (true, 0) ∧
    (((emptyGraph Nat).addEdge 0 1).addNode 0 true).sources =
      ((emptyGraph Nat).addEdge 0 1).sources :=
  ⟨by decide, claim9_source_only_first_insertion ((emptyGraph Nat).addEdge 0 1) 0
    (true, 0) (by decide)⟩

/-- C10: `addEdge` reactivates a known-but-inactive endpoint: the endpoint
becomes active again with its original id, it reappears in `getNodes()`, its
adjacency on the side of the new edge holds exactly that edge, and nothing
else is restored (the other side is empty, except for a self-loop). -/
theorem claim10_addEdge_reactivates (g : Graph T) (hc : Constructed g) (src dest : T) :
    (∀ i, lookupNM g.nodeMap src = some (false, i) →
      lookupNM (g.addEdge src dest).nodeMap src = some (true, i) ∧
      src ∈ (g.addEdge src dest).getNodes ∧
      (∃ did, lookupNM (g.addEdge src dest).nodeMap dest = some (true, did) ∧
        getAdj (g.addEdge src dest).adjList i = [did]) ∧
      getAdj (g.addEdge src dest).revAdjList i = (if dest = src then [i] else [])) ∧
    (∀ i, lookupNM g.nodeMap dest = some (false, i) →
      lookupNM (g.addEdge src dest).nodeMap dest = some (true, i) ∧
      dest ∈ (g.addEdge src dest).getNodes ∧
      (∃ sid, lookupNM (g.addEdge src dest).nodeMap src = some (true, sid) ∧
        getAdj (g.addEdge src dest).revAdjList i = [sid]) ∧
      getAdj (g.addEdge src dest).adjList i = (if src = dest then [i] else [])) := by
  have h := WF_constructed g hc
  obtain ⟨sid, did, hsid, hdid, hsstable, hdstable, hiddiff, hAs, hRd, hAother, hROther⟩ :=
    addEdge_adj_lists g h src dest
  constructor
  · intro i hli
    have hsi : sid = i := hsstable false i hli
    subst hsi
    have hentry := (h.lookup_entry hli).1
    have hempty := h.hinact sid (src, false, sid) hentry rfl
    refine ⟨hsid, ?_, ⟨did, hdid, ?_⟩, ?_⟩
    · rw [Graph.getNodes, List.mem_filter]
      constructor
      · show src ∈ ((g.addNode src false).addNode dest false).nodes
        have h1 : WF ((g.addNode src false).addNode dest false) :=
          WF_addNode _ (WF_addNode _ h src false) dest false
        exact (h1.lookup_mem_nodes (by rw [← addEdge_nodeMap]; exact hsid)).1
      · simp [hsid]
    · rw [hAs, hempty.1]
      simp [insertSorted]
    · by_cases hds : dest = src
      · subst hds
        have hsd : sid = did := by
          rw [hsid] at hdid
          simpa using congrArg (fun o => o.map Prod.snd) hdid
        rw [← hsd] at hRd
        rw [hRd, hempty.2]
        simp [insertSorted]
      · have hsd : sid ≠ did := fun he => hds (hiddiff.mp he).symm
        rw [if_neg hds, hROther sid hsd, hempty.2]
  · intro i hli
    have hdi : did = i := hdstable false i hli
    subst hdi
    have hentry := (h.lookup_entry hli).1
    have hempty := h.hinact did (dest, false, did) hentry rfl
    refine ⟨hdid, ?_, ⟨sid, hsid, ?_⟩, ?_⟩
    · rw [Graph.getNodes, List.mem_filter]
      constructor
      · show dest ∈ ((g.addNode src false).addNode dest false).nodes
        have h1 : WF ((g.addNode src false).addNode dest false) :=
          WF_addNode _ (WF_addNode _ h src false) dest false
        exact (h1.lookup_mem_nodes (by rw [← addEdge_nodeMap]; exact hdid)).1
      · simp [hdid]
    · rw [hRd, hempty.2]
      simp [insertSorted]
    · by_cases hds : src = dest
      · subst hds
        have hsd : sid = did := by
          rw [hsid] at hdid
          simpa using congrArg (fun o => o.map Prod.snd) hdid
        rw [hsd] at hAs
        rw [hAs, hempty.1, ← hsd]
        simp [insertSorted]
      · have hsd : sid ≠ did := fun he => hds (hiddiff.mp he)
        rw [if_neg hds, hAother did (fun he => hsd he.symm), hempty.1]

theorem claim10_addEdge_reactivates_witness :
    lookupNM (((emptyGraph Nat).addEdge 0 1).removeNode 0).nodeMap 0 = some (false, 0) ∧
    lookupNM ((((emptyGraph Nat).addEdge 0 1).removeNode 0).addEdge 0 1).nodeMap 0 =
      some (true, 0) := by
  have hc : Constructed (((emptyGraph Nat).addEdge 0 1).removeNode 0) :=
    Constructed.step _ (Op.removeNode 0)
      (Constructed.step _ (Op.addEdge 0 1) Constructed.empty)
  have h10 := (claim10_addEdge_reactivates (((emptyGraph Nat).addEdge 0 1).removeNode 0)
    hc 0 1).1 0 (by decide)
  exact ⟨by decide, h10.1⟩

/-! ## Worklist traversal of `removeNonReachable`: correctness -/

theorem filter_length_mono (L : List Nat) (p q : Nat → Bool)
    (hw : ∀ x, q x = true → p x = true) :
    (L.filter q).length ≤ (L.filter p).length := by
  induction L with
  | nil => simp
  | cons a L' ih =>
    by_cases hq : q a = true
    · simp only [List.filter_cons, hq, hw a hq, if_true]
      simpa using ih
    · have hq' : q a = false := Bool.eq_false_iff.mpr hq
      by_cases hp : p a = true
      · simp only [List.filter_cons, hq', hp, if_true, if_false, Bool.false_eq_true]
        simp only [List.length_cons]
        omega
      · have hp' : p a = false := Bool.eq_false_iff.mpr hp
        simp only [List.filter_cons, hq', hp', Bool.false_eq_true, if_false]
        exact ih

theorem filter_length_strict (L : List Nat) (p q : Nat → Bool)
    (hw : ∀ x, q x = true → p x = true) (d : Nat) (hd : d ∈ L)
    (hp : p d = true) (hq : q d = false) :
    (L.filter q).length < (L.filter p).length := by
  induction L with
  | nil => simp at hd
  | cons a L' ih =>
    rcases List.mem_cons.mp hd with rfl | hd'
    · have h1 := filter_length_mono L' p q hw
      simp only [List.filter_cons, hp, hq, if_true, Bool.false_eq_true, if_false,
        List.length_cons]
      omega
    · by_cases hqa : q a = true
      · simp only [List.filter_cons, hqa, hw a hqa, if_true, List.length_cons]
        have := ih hd'
        omega
      · have hqa' : q a = false := Bool.eq_false_iff.mpr hqa
        by_cases hpa : p a = true
        · simp only [List.filter_cons, hqa', hpa, if_true, Bool.false_eq_true, if_false,
            List.length_cons]
          have := ih hd'
          omega
        · have hpa' : p a = false := Bool.eq_false_iff.mpr hpa
          simp only [List.filter_cons, hqa', hpa', Bool.false_eq_true, if_false]
          exact ih hd'

theorem pushLoop_visited_mono (l stack visited : List Nat) :
    ∀ x ∈ visited,
      x ∈ (l.foldl (fun sv dest => if dest ∈ sv.2 then sv else (dest :: sv.1, dest :: sv.2))
        (stack, visited)).2 := by
  induction l generalizing stack visited with
  | nil => intro x hx; exact hx
  | cons d ds ih =>
    intro x hx
    simp only [List.foldl_cons]
    by_cases hd : d ∈ visited
    · rw [if_pos hd]
      exact ih stack visited x hx
    · rw [if_neg hd]
      exact ih (d :: stack) (d :: visited) x (List.mem_cons_of_mem d hx)

theorem pushLoop_stack_mono (l stack visited : List Nat) :
    ∀ x ∈ stack,
      x ∈ (l.foldl (fun sv dest => if dest ∈ sv.2 then sv else (dest :: sv.1, dest :: sv.2))
        (stack, visited)).1 := by
  induction l generalizing stack visited with
  | nil => intro x hx; exact hx
  | cons d ds ih =>
    intro x hx
    simp only [List.foldl_cons]
    by_cases hd : d ∈ visited
    · rw [if_pos hd]
      exact ih stack visited x hx
    · rw [if_neg hd]
      exact ih (d :: stack) (d :: visited) x (List.mem_cons_of_mem d hx)

theorem pushLoop_l_visited (l stack visited : List Nat) :
    ∀ d ∈ l,
      d ∈ (l.foldl (fun sv dest => if dest ∈ sv.2 then sv else (dest :: sv.1, dest :: sv.2))
        (stack, visited)).2 := by
  induction l generalizing stack visited with
  | nil => intro d hd; simp at hd
  | cons d' ds ih =>
    intro d hd
    simp only [List.foldl_cons]
    rcases List.mem_cons.mp hd with rfl | hd'
    · by_cases hdv : d ∈ visited
      · rw [if_pos hdv]
        exact pushLoop_visited_mono ds stack visited d hdv
      · rw [if_neg hdv]
        exact pushLoop_visited_mono ds (d :: stack) (d :: visited) d (List.mem_cons_self d _)
    · by_cases hdv : d' ∈ visited
      · rw [if_pos hdv]
        exact ih stack visited d hd'
      · rw [if_neg hdv]
        exact ih (d' :: stack) (d' :: visited) d hd'

theorem pushLoop_visited_from (l stack visited : List Nat) :
    ∀ x ∈ (l.foldl (fun sv dest => if dest ∈ sv.2 then sv else (dest :: sv.1, dest :: sv.2))
        (stack, visited)).2, x ∈ visited ∨ x ∈ l := by
  induction l generalizing stack visited with
  | nil => intro x hx; exact Or.inl hx
  | cons d ds ih =>
    intro x hx
    simp only [List.foldl_cons] at hx
    by_cases hd : d ∈ visited
    · rw [if_pos hd] at hx
      rcases ih stack visited x hx with h | h
      · exact Or.inl h
      · exact Or.inr (List.mem_cons_of_mem d h)
    · rw [if_neg hd] at hx
      rcases ih (d :: stack) (d :: visited) x hx with h | h
      · rcases List.mem_cons.mp h with rfl | h'
        · exact Or.inr (List.mem_cons_self x _)
        · exact Or.inl h'
      · exact Or.inr (List.mem_cons_of_mem d h)

theorem pushLoop_new_on_stack (l stack visited : List Nat) :
    ∀ x ∈ (l.foldl (fun sv dest => if dest ∈ sv.2 then sv else (dest :: sv.1, dest :: sv.2))
        (stack, visited)).2, x ∉ visited →
      x ∈ (l.foldl (fun sv dest => if dest ∈ sv.2 then sv else (dest :: sv.1, dest :: sv.2))
        (stack, visited)).1 := by
  induction l generalizing stack visited with
  | nil => intro x hx hnx; exact absurd hx hnx
  | cons d ds ih =>
    intro x hx hnx
    simp only [List.foldl_cons] at hx ⊢
    by_cases hd : d ∈ visited
    · rw [if_pos hd] at hx ⊢
      exact ih stack visited x hx hnx
    · rw [if_neg hd] at hx ⊢
      by_cases hxd : x = d
      · subst hxd
        exact pushLoop_stack_mono ds (x :: stack) (x :: visited) x (List.mem_cons_self x _)
      · exact ih (d :: stack) (d :: visited) x hx (by
          intro hmem
          rcases List.mem_cons.mp hmem with h | h
          · exact hxd h
          · exact hnx h)

theorem pushLoop_stack_from (l stack visited : List Nat) :
    ∀ x ∈ (l.foldl (fun sv dest => if dest ∈ sv.2 then sv else (dest :: sv.1, dest :: sv.2))
        (stack, visited)).1, x ∈ stack ∨
      x ∈ (l.foldl (fun sv dest => if dest ∈ sv.2 then sv else (dest :: sv.1, dest :: sv.2))
        (stack, visited)).2 := by
  induction l generalizing stack visited with
  | nil => intro x hx; exact Or.inl hx
  | cons d ds ih =>
    intro x hx
    simp only [List.foldl_cons] at hx ⊢
    by_cases hd : d ∈ visited
    · rw [if_pos hd] at hx ⊢
      exact ih stack visited x hx
    · rw [if_neg hd] at hx ⊢
      rcases ih (d :: stack) (d :: visited) x hx with h | h
      · rcases List.mem_cons.mp h with rfl | h'
        · exact Or.inr (pushLoop_visited_mono ds (x :: stack) (x :: visited) x
            (List.mem_cons_self x _))
        · exact Or.inl h'
      · exact Or.inr h

theorem pushLoop_count (U : List Nat) (l stack visited : List Nat)
    (hU : ∀ d ∈ l, d ∈ U) :
    (l.foldl (fun sv dest => if dest ∈ sv.2 then sv else (dest :: sv.1, dest :: sv.2))
      (stack, visited)).1.length +
    (U.filter (fun x => x ∉ (l.foldl
      (fun sv dest => if dest ∈ sv.2 then sv else (dest :: sv.1, dest :: sv.2))
      (stack, visited)).2)).length ≤
    stack.length + (U.filter (fun x => x ∉ visited)).length := by
  induction l generalizing stack visited with
  | nil => simp
  | cons d ds ih =>
    simp only [List.foldl_cons]
    by_cases hd : d ∈ visited
    · rw [if_pos hd]
      exact ih stack visited (fun d' hd' => hU d' (List.mem_cons_of_mem d hd'))
    · rw [if_neg hd]
      have h1 := ih (d :: stack) (d :: visited) (fun d' hd' => hU d' (List.mem_cons_of_mem d hd'))
      have h2 : (U.filter (fun x => x ∉ d :: visited)).length <
          (U.filter (fun x => x ∉ visited)).length := by
        apply filter_length_strict U _ _ _ d (hU d (List.mem_cons_self d ds))
        · simp [hd]
        · simp
        · intro x hx
          simp only [decide_eq_true_eq] at hx ⊢
          intro hmem
          exact hx (List.mem_cons_of_mem d hmem)
      simp only [List.length_cons] at h1
      omega

theorem getAdj_sub_join (adj : List (List Nat)) (a d : Nat)
    (hd : d ∈ getAdj adj a) : d ∈ adj.flatten := by
  rcases Nat.lt_or_ge a adj.length with ha | ha
  · rw [getAdj, List.getD_eq_getElem?_getD, List.getElem?_eq_getElem ha] at hd
    exact List.mem_join.mpr ⟨adj[a], List.getElem_mem ha, hd⟩
  · rw [getAdj_out_of_range adj a ha] at hd
    simp at hd

/-- Specification of the explicit-stack traversal: with sufficient fuel, given
the worklist invariants, the final visited set contains the initial one, is
sound for any edge-closed predicate holding on the initial visited set, and is
closed under forward edges. -/
theorem reachLoop_spec (adj : List (List Nat)) (P : Nat → Prop)
    (hP : ∀ x y, P x → y ∈ getAdj adj x → P y) :
    ∀ (fuel : Nat) (stack visited : List Nat),
    (∀ x ∈ stack, x ∈ visited) →
    (∀ x ∈ visited, P x) →
    (∀ x ∈ visited, x ∉ stack → ∀ d ∈ getAdj adj x, d ∈ visited) →
    stack.length + ((adj.flatten.dedup).filter (fun x => x ∉ visited)).length ≤ fuel →
    (∀ x ∈ visited, x ∈ reachLoop adj fuel stack visited) ∧
    (∀ x ∈ reachLoop adj fuel stack visited, P x) ∧
    (∀ x ∈ reachLoop adj fuel stack visited, ∀ d ∈ getAdj adj x,
      d ∈ reachLoop adj fuel stack visited) := by
  intro fuel
  induction fuel with
  | zero =>
    intro stack visited hsv hsound hclosed hfuel
    have hstack : stack = [] := by
      cases stack with
      | nil => rfl
      | cons a s => simp at hfuel
    subst hstack
    refine ⟨fun x hx => hx, hsound, ?_⟩
    intro x hx d hd
    exact hclosed x hx (List.not_mem_nil x) d hd
  | succ fuel ih =>
    intro stack visited hsv hsound hclosed hfuel
    cases stack with
    | nil =>
      refine ⟨fun x hx => hx, hsound, ?_⟩
      intro x hx d hd
      exact hclosed x hx (List.not_mem_nil x) d hd
    | cons node stack' =>
      show (∀ x ∈ visited, x ∈ reachLoop adj fuel _ _) ∧ _
      have hnodev : node ∈ visited := hsv node (List.mem_cons_self node stack')
      have hl := pushLoop_l_visited (getAdj adj node) stack' visited
      have hvm := pushLoop_visited_mono (getAdj adj node) stack' visited
      have hsm := pushLoop_stack_mono (getAdj adj node) stack' visited
      have hvf := pushLoop_visited_from (getAdj adj node) stack' visited
      have hns := pushLoop_new_on_stack (getAdj adj node) stack' visited
      have hsf := pushLoop_stack_from (getAdj adj node) stack' visited
      obtain ⟨hm, hs, hc⟩ := ih (reachStep adj node (stack', visited)).1
        (reachStep adj node (stack', visited)).2
        (by
          intro x hx
          rcases hsf x hx with h | h
          · exact hvm x (hsv x (List.mem_cons_of_mem node h))
          · exact h)
        (by
          intro x hx
          rcases hvf x hx with h | h
          · exact hsound x h
          · exact hP node x (hsound node hnodev) h)
        (by
          intro x hx hnx d hd
          by_cases hxv : x ∈ visited
          · by_cases hxnode : x = node
            · subst hxnode
              exact hl d hd
            · have hxs : x ∉ stack' := fun hmem => hnx (hsm x hmem)
              have hxns : x ∉ node :: stack' := by
                intro hmem
                rcases List.mem_cons.mp hmem with h | h
                · exact hxnode h
                · exact hxs h
              exact hvm d (hclosed x hxv hxns d hd)
          · exact absurd (hns x hx hxv) hnx)
        (by
          have hcount := pushLoop_count adj.flatten.dedup (getAdj adj node) stack' visited
            (fun d hd => List.mem_dedup.mpr (getAdj_sub_join adj node d hd))
          simp only [List.length_cons] at hfuel
          simp only [reachStep]
          omega)
      exact ⟨fun x hx => hm x (hvm x hx), hs, hc⟩

theorem sum_lengths_foldl (adj : List (List Nat)) : ∀ acc : Nat,
    adj.foldl (fun a l => a + l.length) acc = acc + adj.flatten.length := by
  induction adj with
  | nil => intro acc; simp
  | cons l ls ih =>
    intro acc
    simp only [List.foldl_cons, ih, List.flatten_cons, List.length_append]
    omega

/-- The visited set of `removeNonReachable`'s traversal is exactly the set of
ids reachable from the source-id set via forward edges. -/
theorem reachableSet_spec (g : Graph T) (i : Nat) :
    i ∈ g.reachableSet ↔ SourceReachable g i := by
  have hP : ∀ x y, SourceReachable g x → y ∈ getAdj g.adjList x → SourceReachable g y := by
    intro x y hx hy
    obtain ⟨s, hs, hpath⟩ := hx
    exact ⟨s, hs, Relation.ReflTransGen.tail hpath hy⟩
  have hspec := reachLoop_spec g.adjList (SourceReachable g) hP
    (reachFuel g.adjList g.sources) g.sources.reverse g.sources
    (fun x hx => List.mem_reverse.mp hx)
    (fun s hs => ⟨s, hs, Relation.ReflTransGen.refl⟩)
    (fun x hx hnx => absurd (List.mem_reverse.mpr hx) hnx)
    (by
      have hf1 : ((g.adjList.flatten.dedup).filter (fun x => x ∉ g.sources)).length ≤
          g.adjList.flatten.dedup.length := List.length_filter_le _ _
      have hf2 : g.adjList.flatten.dedup.length ≤ g.adjList.flatten.length :=
        List.Sublist.length_le (List.dedup_sublist _)
      have hf3 := sum_lengths_foldl g.adjList 0
      simp only [reachFuel, List.length_reverse]
      omega)
  show i ∈ reachLoop g.adjList (reachFuel g.adjList g.sources) g.sources.reverse g.sources ↔ _
  constructor
  · exact hspec.2.1 i
  · rintro ⟨s, hs, hpath⟩
    induction hpath with
    | refl => exact hspec.1 s (List.mem_reverse.mp (List.mem_reverse.mpr hs))
    | tail hab hbc ih => exact hspec.2.2 _ ih _ hbc

/-! ## The removal loop of `removeNonReachable` -/

theorem rnr_fold_main (V : List Nat) (L : List (T × Bool × Nat)) (g' : Graph T)
    (v : T) (b : Bool) (i : Nat) (hl : lookupNM g'.nodeMap v = some (b, i)) :
    ∃ b', lookupNM ((L.foldl (fun g'' e =>
        match lookupNM g''.nodeMap e.1 with
        | some (true, id) => if id ∉ V then g''.removeNode e.1 else g''
        | _ => g'') g').nodeMap) v = some (b', i) ∧
      (b' = true ↔ (b = true ∧ (v ∈ L.map (fun e => e.1) → i ∈ V))) := by
  induction L generalizing g' b with
  | nil => exact ⟨b, hl, by simp⟩
  | cons e L' ih =>
    simp only [List.foldl_cons]
    by_cases hev : e.1 = v
    · have hle : lookupNM g'.nodeMap e.1 = some (b, i) := by rw [hev]; exact hl
      cases b with
      | false =>
        simp only [hle]
        obtain ⟨b', hb', hiff⟩ := ih g' false hl
        refine ⟨b', hb', ?_⟩
        rw [hiff]
        simp
      | true =>
        by_cases hv : i ∈ V
        · have hnn : ¬ (i ∉ V) := fun hn => hn hv
          simp only [hle, if_neg hnn]
          obtain ⟨b', hb', hiff⟩ := ih g' true hl
          refine ⟨b', hb', ?_⟩
          rw [hiff]
          constructor <;> intro h <;> exact ⟨by simp, fun _ => hv⟩
        · simp only [hle, if_pos hv]
          have hrm : lookupNM (g'.removeNode e.1).nodeMap v = some (false, i) := by
            rw [hev]
            exact lookup_removeNode_self g' v true i hl
          obtain ⟨b', hb', hiff⟩ := ih (g'.removeNode e.1) false hrm
          refine ⟨b', hb', ?_⟩
          rw [hiff]
          constructor
          · intro h
            exact absurd h.1 (by simp)
          · intro h
            exact absurd (h.2 (by
              rw [List.map_cons, ← hev]
              exact List.mem_cons_self _ _)) hv
    · have hvne : ¬ v = e.1 := fun h => hev h.symm
      have hkeys : v ∈ (e :: L').map (fun e => e.1) ↔ v ∈ L'.map (fun e => e.1) := by
        simp [List.mem_cons, hvne]
      cases hle : lookupNM g'.nodeMap e.1 with
      | none =>
        simp only [hle]
        obtain ⟨b', hb', hiff⟩ := ih g' b hl
        exact ⟨b', hb', by rw [hiff, hkeys]⟩
      | some q =>
        obtain ⟨bq, iq⟩ := q
        cases bq with
        | false =>
          simp only [hle]
          obtain ⟨b', hb', hiff⟩ := ih g' b hl
          exact ⟨b', hb', by rw [hiff, hkeys]⟩
        | true =>
          by_cases hq : iq ∉ V
          · simp only [hle, if_pos hq]
            have hl2 : lookupNM (g'.removeNode e.1).nodeMap v = some (b, i) := by
              rw [lookup_removeNode_other g' e.1 v hvne]
              exact hl
            obtain ⟨b', hb', hiff⟩ := ih (g'.removeNode e.1) b hl2
            exact ⟨b', hb', by rw [hiff, hkeys]⟩
          · simp only [hle, if_neg hq]
            obtain ⟨b', hb', hiff⟩ := ih g' b hl
            exact ⟨b', hb', by rw [hiff, hkeys]⟩

theorem rnr_nodes (g : Graph T) : g.removeNonReachable.nodes = g.nodes := by
  show (g.nodeMap.foldl _ g).nodes = g.nodes
  suffices h : ∀ (L : List (T × Bool × Nat)) (g' : Graph T),
      (L.foldl (fun g'' e =>
        match lookupNM g''.nodeMap e.1 with
        | some (true, id) => if id ∉ g.reachableSet then g''.removeNode e.1 else g''
        | _ => g'') g').nodes = g'.nodes by
    exact h g.nodeMap g
  intro L
  induction L with
  | nil => intro g'; rfl
  | cons e L' ih =>
    intro g'
    simp only [List.foldl_cons]
    rw [ih]
    cases hle : lookupNM g'.nodeMap e.1 with
    | none => simp only [hle]
    | some q =>
      obtain ⟨bq, iq⟩ := q
      cases bq with
      | false => simp only [hle]
      | true =>
        by_cases hq : iq ∉ g.reachableSet
        · simp only [hle, if_pos hq]
          exact removeNode_nodes g' e.1
        · simp only [hle, if_neg hq]

/-- C7: after `removeNonReachable()`, a known node value is active exactly
when it was active before and its id is reachable from the source-id set via
forward edges; with no declared sources everything is pruned and `getNodes()`
is empty. -/
theorem claim7_removeNonReachable_prunes (g : Graph T) (hc : Constructed g) :
    (∀ (v : T) (b : Bool) (i : Nat), lookupNM g.nodeMap v = some (b, i) →
      (lookupNM g.removeNonReachable.nodeMap v = some (true, i) ↔
        b = true ∧ SourceReachable g i)) ∧
    (g.sources = [] → g.removeNonReachable.getNodes = []) := by
  have h := WF_constructed g hc
  have hmain : ∀ (v : T) (b : Bool) (i : Nat), lookupNM g.nodeMap v = some (b, i) →
      (lookupNM g.removeNonReachable.nodeMap v = some (true, i) ↔
        b = true ∧ SourceReachable g i) := by
    intro v b i hl
    obtain ⟨b', hb', hiff⟩ := rnr_fold_main g.reachableSet g.nodeMap g v b i hl
    have hres : lookupNM g.removeNonReachable.nodeMap v = some (b', i) := hb'
    rw [hres]
    have hvkeys : v ∈ g.nodeMap.map (fun e => e.1) := by
      have := lookupNM_mem_keys g.nodeMap v (b, i) hl
      exact List.mem_map.mpr ⟨(v, (b, i)), this, rfl⟩
    constructor
    · intro heq
      have hb't : b' = true := by
        have := congrArg (fun o => o.map Prod.fst) heq
        simpa using this
      obtain ⟨hb, himp⟩ := hiff.mp hb't
      exact ⟨hb, (reachableSet_spec g i).mp (himp hvkeys)⟩
    · rintro ⟨hb, hreach⟩
      have hb't : b' = true := hiff.mpr ⟨hb, fun _ => (reachableSet_spec g i).mpr hreach⟩
      rw [hb't]
  refine ⟨hmain, ?_⟩
  intro hsrc
  have hreach_empty : ∀ j, ¬ SourceReachable g j := by
    rintro j ⟨s, hs, _⟩
    rw [hsrc] at hs
    exact absurd hs (List.not_mem_nil s)
  rw [Graph.getNodes]
  apply List.filter_eq_nil_iff.mpr
  intro w hw
  rw [rnr_nodes] at hw
  obtain ⟨jw, hjw, hje⟩ := List.mem_iff_getElem.mp hw
  obtain ⟨bw, hbw⟩ := h.lookup_of_nodes_getElem
    (by rw [List.getElem?_eq_getElem hjw, hje])
  obtain ⟨b', hb', hiff⟩ := rnr_fold_main g.reachableSet g.nodeMap g w bw jw hbw
  have hres : lookupNM g.removeNonReachable.nodeMap w = some (b', jw) := hb'
  have hb'f : b' = false := by
    cases hbf : b' with
    | false => rfl
    | true =>
      obtain ⟨_, himp⟩ := hiff.mp hbf
      have hwkeys : w ∈ g.nodeMap.map (fun e => e.1) := by
        have := lookupNM_mem_keys g.nodeMap w (bw, jw) hbw
        exact List.mem_map.mpr ⟨(w, (bw, jw)), this, rfl⟩
      exact absurd ((reachableSet_spec g jw).mp (himp hwkeys)) (hreach_empty jw)
  rw [hres, hb'f]
  simp

theorem claim7_removeNonReachable_prunes_witness :
    lookupNM (((emptyGraph Nat).addNode 0 true).addEdge 0 1).nodeMap 0 = some (true, 0) ∧
    lookupNM ((((emptyGraph Nat).addNode 0 true).addEdge 0 1).removeNonReachable).nodeMap 0 =
      some (true, 0) := by
  have hc : Constructed (((emptyGraph Nat).addNode 0 true).addEdge 0 1) :=
    Constructed.step _ (Op.addEdge 0 1)
      (Constructed.step _ (Op.addNode 0 true) Constructed.empty)
  have h7 := (claim7_removeNonReachable_prunes (((emptyGraph Nat).addNode 0 true).addEdge 0 1)
    hc).1 0 true 0 (by decide)
  exact ⟨by decide, h7.mpr ⟨rfl, ⟨0, by decide, Relation.ReflTransGen.refl⟩⟩⟩

/-! ## Depth-first search of `topologicalSort`: basic specification -/

theorem nodup_bounded_length (visited : List Nat) (n node : Nat)
    (hnd : visited.Nodup) (hbd : ∀ x ∈ visited, x < n) (hnode : node < n)
    (hnm : node ∉ visited) : visited.length < n := by
  classical
  have h1 : visited.toFinset ⊆ (Finset.range n).erase node := by
    intro x hx
    rw [List.mem_toFinset] at hx
    exact Finset.mem_erase.mpr ⟨fun he => hnm (he ▸ hx), Finset.mem_range.mpr (hbd x hx)⟩
  have h2 := Finset.card_le_card h1
  rw [List.toFinset_card_of_nodup hnd] at h2
  rw [Finset.card_erase_of_mem (Finset.mem_range.mpr hnode), Finset.card_range] at h2
  omega

theorem length_le_of_nodup_subset (l1 l2 : List Nat) (hnd : l1.Nodup)
    (hsub : ∀ x ∈ l1, x ∈ l2) : l1.length ≤ l2.length :=
  (List.subperm_of_subset hnd hsub).length_le

theorem dfsVisit_succ (adj : List (List Nat)) (fuel node : Nat) (res visited : List Nat) :
    dfsVisit adj (fuel + 1) node (res, visited) =
      (((getAdj adj node).foldl (fun s d => if d ∈ s.2 then s else dfsVisit adj fuel d s)
        (res, node :: visited)).1 ++ [node],
       ((getAdj adj node).foldl (fun s d => if d ∈ s.2 then s else dfsVisit adj fuel d s)
        (res, node :: visited)).2) := rfl

theorem dfsList_basic (adj : List (List Nat)) (n fuel : Nat)
    (hspec : BasicSpec adj n fuel) : BasicListSpec adj n fuel := by
  intro G l
  induction l with
  | nil =>
    intro res visited hl hbd hnd hfuel hclosed
    simp only [List.foldl_nil]
    exact ⟨fun x hx => hx, by simp, hnd, hbd, hclosed,
      ⟨[], by simp, List.nodup_nil, by simp⟩, fun x hx => Or.inl hx⟩
  | cons d ds ih =>
    intro res visited hl hbd hnd hfuel hclosed
    simp only [List.foldl_cons]
    by_cases hd : d ∈ visited
    · rw [if_pos hd]
      obtain ⟨c1, c2, c3, c4, c5, c6, c7⟩ := ih res visited
        (fun d' h => hl d' (List.mem_cons_of_mem d h)) hbd hnd hfuel hclosed
      refine ⟨c1, ?_, c3, c4, c5, c6, ?_⟩
      · intro d' hd'
        rcases List.mem_cons.mp hd' with rfl | hd''
        · exact c1 d' hd
        · exact c2 d' hd''
      · intro x hx
        rcases c7 x hx with h | ⟨d', hd', hr⟩
        · exact Or.inl h
        · exact Or.inr ⟨d', List.mem_cons_of_mem d hd', hr⟩
    · rw [if_neg hd]
      obtain ⟨b1, b2, b3, b4, b5, ⟨Δ1, hΔ1, hΔ1nd, hΔ1iff⟩, b7⟩ :=
        hspec G d res visited (hl d (List.mem_cons_self d ds)) hd hbd hnd hfuel hclosed
      have hlen : visited.length ≤ (dfsVisit adj fuel d (res, visited)).2.length :=
        length_le_of_nodup_subset visited _ hnd b1
      obtain ⟨c1, c2, c3, c4, c5, ⟨Δ2, hΔ2, hΔ2nd, hΔ2iff⟩, c7⟩ :=
        ih (dfsVisit adj fuel d (res, visited)).1 (dfsVisit adj fuel d (res, visited)).2
          (fun d' h => hl d' (List.mem_cons_of_mem d h)) b4 b3 (by omega) b5
      refine ⟨?_, ?_, c3, c4, c5, ?_, ?_⟩
      · intro x hx
        exact c1 x (b1 x hx)
      · intro d' hd'
        rcases List.mem_cons.mp hd' with rfl | hd''
        · exact c1 d' b2
        · exact c2 d' hd''
      · refine ⟨Δ1 ++ Δ2, ?_, ?_, ?_⟩
        · rw [hΔ2, hΔ1, List.append_assoc]
        · rw [List.nodup_append]
          refine ⟨hΔ1nd, hΔ2nd, ?_⟩
          intro x hx1 hx2
          have h1 := (hΔ1iff x).mp hx1
          have h2 := (hΔ2iff x).mp hx2
          exact h2.2 h1.1
        · intro x
          rw [List.mem_append, hΔ1iff x, hΔ2iff x]
          constructor
          · rintro (⟨hv, hnv⟩ | ⟨hv, hnv⟩)
            · exact ⟨c1 x hv, hnv⟩
            · exact ⟨hv, fun hmem => hnv (b1 x hmem)⟩
          · rintro ⟨hv, hnv⟩
            by_cases hx : x ∈ (dfsVisit adj fuel d (res, visited)).2
            · exact Or.inl ⟨hx, hnv⟩
            · exact Or.inr ⟨hv, hx⟩
      · intro x hx
        rcases c7 x hx with h | ⟨d', hd', hr⟩
        · rcases b7 x h with h' | h'
          · exact Or.inl h'
          · exact Or.inr ⟨d, List.mem_cons_self d ds, h'⟩
        · exact Or.inr ⟨d', List.mem_cons_of_mem d hd', hr⟩

theorem dfsVisit_basic (adj : List (List Nat)) (n : Nat)
    (Hadj : ∀ a d, d ∈ getAdj adj a → d < n) :
    ∀ fuel, BasicSpec adj n fuel := by
  intro fuel
  induction fuel with
  | zero =>
    intro G node res visited h1 h2 h3 h4 h5 h6
    have := nodup_bounded_length visited n node h4 h3 h1 h2
    omega
  | succ fuel ih =>
    intro G node res visited h1 h2 h3 h4 h5 h6
    obtain ⟨c1, c2, c3, c4, c5, ⟨Δ1, hΔ1, hΔ1nd, hΔ1iff⟩, c7⟩ :=
      dfsList_basic adj n fuel ih (fun x => G x ∨ x = node) (getAdj adj node)
        res (node :: visited)
        (fun d hd => Hadj node d hd)
        (by
          intro x hx
          rcases List.mem_cons.mp hx with rfl | hx'
          · exact h1
          · exact h3 x hx')
        (List.nodup_cons.mpr ⟨h2, h4⟩)
        (by simp only [List.length_cons]; omega)
        (by
          intro x hx hgx d hd
          rcases List.mem_cons.mp hx with rfl | hx'
          · exact absurd (Or.inr rfl) hgx
          · exact List.mem_cons_of_mem _ (h6 x hx' (fun hg => hgx (Or.inl hg)) d hd))
    rw [dfsVisit_succ]
    refine ⟨?_, ?_, c3, c4, ?_, ?_, ?_⟩
    · intro x hx
      exact c1 x (List.mem_cons_of_mem node hx)
    · exact c1 node (List.mem_cons_self node visited)
    · intro x hx hgx d hd
      by_cases hxn : x = node
      · subst hxn
        exact c2 d hd
      · exact c5 x hx (by
          intro hg
          rcases hg with hg | hg
          · exact hgx hg
          · exact hxn hg) d hd
    · refine ⟨Δ1 ++ [node], ?_, ?_, ?_⟩
      · rw [hΔ1, List.append_assoc]
      · rw [List.nodup_append]
        refine ⟨hΔ1nd, List.nodup_singleton node, ?_⟩
        intro x hx1 hx2
        rw [List.mem_singleton] at hx2
        subst hx2
        exact ((hΔ1iff x).mp hx1).2 (List.mem_cons_self x visited)
      · intro x
        rw [List.mem_append, List.mem_singleton, hΔ1iff x]
        constructor
        · rintro (⟨hv, hnv⟩ | rfl)
          · exact ⟨hv, fun hmem => hnv (List.mem_cons_of_mem node hmem)⟩
          · exact ⟨c1 x (List.mem_cons_self x visited), h2⟩
        · rintro ⟨hv, hnv⟩
          by_cases hxn : x = node
          · exact Or.inr hxn
          · refine Or.inl ⟨hv, ?_⟩
            intro hmem
            rcases List.mem_cons.mp hmem with h | h
            · exact hxn h
            · exact hnv h
    · intro x hx
      rcases c7 x hx with h | ⟨d, hd, hr⟩
      · rcases List.mem_cons.mp h with rfl | h'
        · exact Or.inr Relation.ReflTransGen.refl
        · exact Or.inl h'
      · exact Or.inr (Relation.ReflTransGen.head hd hr)

/-! ## Depth-first search: post-order specification -/

theorem dfsList_post (adj : List (List Nat)) (n fuel : Nat) (P : Nat → Prop)
    (Hadj : ∀ a d, d ∈ getAdj adj a → d < n)
    (hpost : PostSpec adj n fuel P) : PostListSpec adj n fuel P := by
  intro G l
  induction l with
  | nil =>
    intro res visited hl hbd hnd hfuel hclosed hP hpart hresG hpo
    simp only [List.foldl_nil]
    exact ⟨hpart, hresG, hpo⟩
  | cons d ds ih =>
    intro res visited hl hbd hnd hfuel hclosed hP hpart hresG hpo
    simp only [List.foldl_cons]
    by_cases hd : d ∈ visited
    · rw [if_pos hd]
      exact ih res visited (fun d' h => hl d' (List.mem_cons_of_mem d h)) hbd hnd hfuel
        hclosed (fun d' h => hP d' (List.mem_cons_of_mem d h)) hpart hresG hpo
    · rw [if_neg hd]
      obtain ⟨b1, b2, b3, b4, b5, ⟨Δ1, hΔ1, hΔ1nd, hΔ1iff⟩, b7⟩ :=
        dfsVisit_basic adj n Hadj fuel G d res visited (hl d (List.mem_cons_self d ds))
          hd hbd hnd hfuel hclosed
      obtain ⟨p1, p2, p3⟩ := hpost G d res visited (hl d (List.mem_cons_self d ds))
        hd hbd hnd hfuel hclosed (hP d (List.mem_cons_self d ds)) hpart hresG hpo
      have hlen := length_le_of_nodup_subset visited _ hnd b1
      exact ih (dfsVisit adj fuel d (res, visited)).1 (dfsVisit adj fuel d (res, visited)).2
        (fun d' h => hl d' (List.mem_cons_of_mem d h)) b4 b3 (by omega) b5
        (fun d' h => hP d' (List.mem_cons_of_mem d h)) p1 p2 p3

theorem dfsVisit_post (adj : List (List Nat)) (n : Nat) (P : Nat → Prop)
    (Hadj : ∀ a d, d ∈ getAdj adj a → d < n)
    (HP : ∀ x y, P x → y ∈ getAdj adj x → P y)
    (Hacyc : ∀ x, P x → ¬ Relation.TransGen (edgeRel adj) x x) :
    ∀ fuel, PostSpec adj n fuel P := by
  intro fuel
  induction fuel with
  | zero =>
    intro G node res visited h1 h2 h3 h4 h5 h6 hPnode hpart hresG hpo
    have := nodup_bounded_length visited n node h4 h3 h1 h2
    omega
  | succ fuel ih =>
    intro G node res visited h1 h2 h3 h4 h5 h6 hPnode hpart hresG hpo
    have hb2 : ∀ x ∈ node :: visited, x < n := by
      intro x hx
      rcases List.mem_cons.mp hx with rfl | hx'
      · exact h1
      · exact h3 x hx'
    have hb3 : (node :: visited).Nodup := List.nodup_cons.mpr ⟨h2, h4⟩
    have hb4 : n ≤ fuel + (node :: visited).length := by
      simp only [List.length_cons]
      omega
    have hb5 : ClosedExcept adj (fun x => G x ∨ x = node) (node :: visited) := by
      intro x hx hgx d hd
      rcases List.mem_cons.mp hx with rfl | hx'
      · exact absurd (Or.inr rfl) hgx
      · exact List.mem_cons_of_mem _ (h6 x hx' (fun hg => hgx (Or.inl hg)) d hd)
    have hpart' : ∀ x, x ∈ node :: visited ↔ x ∈ res ∨ (G x ∨ x = node) := by
      intro x
      rw [List.mem_cons, hpart x]
      tauto
    have hresG' : ∀ x ∈ res, ¬ (G x ∨ x = node) := by
      intro x hx hg
      rcases hg with hg | rfl
      · exact hresG x hx hg
      · exact h2 ((hpart x).mpr (Or.inl hx))
    have hpo' : POInv adj (fun x => G x ∨ x = node) res :=
      fun x d hx hd => (hpo x d hx hd).imp Or.inl id
    obtain ⟨c1, c2, c3, c4, c5, ⟨Δ1, hΔ1, hΔ1nd, hΔ1iff⟩, c7⟩ :=
      dfsList_basic adj n fuel (dfsVisit_basic adj n Hadj fuel) (fun x => G x ∨ x = node)
        (getAdj adj node) res (node :: visited) (Hadj node) hb2 hb3 hb4 hb5
    obtain ⟨p1, p2, p3⟩ :=
      dfsList_post adj n fuel P Hadj ih (fun x => G x ∨ x = node)
        (getAdj adj node) res (node :: visited) (Hadj node) hb2 hb3 hb4 hb5
        (fun d hd => HP node d hPnode hd) hpart' hresG' hpo'
    rw [dfsVisit_succ]
    refine ⟨?_, ?_, ?_⟩
    · intro x
      simp only [List.mem_append, List.mem_singleton]
      constructor
      · intro hx
        rcases (p1 x).mp hx with hr | hg
        · exact Or.inl (Or.inl hr)
        · rcases hg with hg | rfl
          · exact Or.inr hg
          · exact Or.inl (Or.inr rfl)
      · rintro ((hr | rfl) | hg)
        · exact (p1 x).mpr (Or.inl hr)
        · exact c1 x (List.mem_cons_self x visited)
        · exact c1 x (List.mem_cons_of_mem node ((hpart x).mpr (Or.inr hg)))
    · intro x hx
      rcases List.mem_append.mp hx with hx' | hx'
      · exact fun hg => p2 x hx' (Or.inl hg)
      · rw [List.mem_singleton] at hx'
        subst hx'
        exact fun hg => h2 ((hpart x).mpr (Or.inr hg))
    · intro x dx hx hdx
      rcases List.mem_append.mp hx with hx' | hx'
      · rcases p3 x dx hx' hdx with hG' | ⟨l1, l2, heq, hmem⟩
        · rcases hG' with hG | rfl
          · exact Or.inl hG
          · exfalso
            by_cases hxres : x ∈ res
            · have hxvis : x ∈ visited := (hpart x).mpr (Or.inl hxres)
              exact h2 (h6 x hxvis (hresG x hxres) dx hdx)
            · have hxΔ : x ∈ Δ1 := by
                rw [hΔ1] at hx'
                rcases List.mem_append.mp hx' with h | h
                · exact absurd h hxres
                · exact h
              have hxX2 := ((hΔ1iff x).mp hxΔ).1
              have hxnv := ((hΔ1iff x).mp hxΔ).2
              rcases c7 x hxX2 with h | ⟨d, hdmem, hr⟩
              · exact hxnv h
              · have hreach : ReachFrom adj dx x := Relation.ReflTransGen.head hdmem hr
                exact Hacyc dx hPnode (Relation.TransGen.tail' hreach hdx)
        · refine Or.inr ⟨l1, l2 ++ [node], ?_, hmem⟩
          rw [heq, List.append_assoc]
          rfl
      · rw [List.mem_singleton] at hx'
        subst hx'
        rcases (p1 dx).mp (c2 dx hdx) with hdres | hG'
        · refine Or.inr ⟨((getAdj adj x).foldl
            (fun s d => if d ∈ s.2 then s else dfsVisit adj fuel d s)
            (res, x :: visited)).1, [], rfl, hdres⟩
        · rcases hG' with hG | rfl
          · exact Or.inl hG
          · exact absurd (Relation.TransGen.single hdx) (Hacyc dx hPnode)

/-! ## The source loop of `topologicalSort` -/

theorem dfsTop_basic (g : Graph T) (h : WF g) :
    ∀ (L : List Nat) (res visited : List Nat),
    (∀ s ∈ L, s ∈ g.sources) →
    (∀ x ∈ visited, x < g.nodes.length) → visited.Nodup →
    ClosedExcept g.adjList (fun _ => False) visited →
    (∀ x, x ∈ visited ↔ x ∈ res) → res.Nodup →
    (∀ x ∈ visited, SourceReachable g x) →
    (∀ x ∈ visited, x ∈ (L.foldl (fun st s => if s ∈ st.2 then st else
      dfsVisit g.adjList (g.nodes.length + 1) s st) (res, visited)).2) ∧
    (∀ s ∈ L, s ∈ (L.foldl (fun st s => if s ∈ st.2 then st else
      dfsVisit g.adjList (g.nodes.length + 1) s st) (res, visited)).2) ∧
    ClosedExcept g.adjList (fun _ => False) (L.foldl (fun st s => if s ∈ st.2 then st else
      dfsVisit g.adjList (g.nodes.length + 1) s st) (res, visited)).2 ∧
    (∀ x, x ∈ (L.foldl (fun st s => if s ∈ st.2 then st else
      dfsVisit g.adjList (g.nodes.length + 1) s st) (res, visited)).2 ↔
      x ∈ (L.foldl (fun st s => if s ∈ st.2 then st else
      dfsVisit g.adjList (g.nodes.length + 1) s st) (res, visited)).1) ∧
    (L.foldl (fun st s => if s ∈ st.2 then st else
      dfsVisit g.adjList (g.nodes.length + 1) s st) (res, visited)).1.Nodup ∧
    (∀ x ∈ (L.foldl (fun st s => if s ∈ st.2 then st else
      dfsVisit g.adjList (g.nodes.length + 1) s st) (res, visited)).2,
      SourceReachable g x) ∧
    (∀ x ∈ (L.foldl (fun st s => if s ∈ st.2 then st else
      dfsVisit g.adjList (g.nodes.length + 1) s st) (res, visited)).2,
      x < g.nodes.length) := by
  have Hadj : ∀ a d, d ∈ getAdj g.adjList a → d < g.nodes.length := h.hadjbd
  intro L
  induction L with
  | nil =>
    intro res visited hL hbd hnd hclosed hpart hresnd hsound
    simp only [List.foldl_nil]
    exact ⟨fun x hx => hx, by simp, hclosed, hpart, hresnd, hsound, hbd⟩
  | cons s L' ih =>
    intro res visited hL hbd hnd hclosed hpart hresnd hsound
    simp only [List.foldl_cons]
    by_cases hs : s ∈ visited
    · rw [if_pos hs]
      obtain ⟨c1, c2, c3, c4, c5, c6, c7⟩ := ih res visited
        (fun s' h' => hL s' (List.mem_cons_of_mem s h')) hbd hnd hclosed hpart hresnd hsound
      refine ⟨c1, ?_, c3, c4, c5, c6, c7⟩
      intro s' hs'
      rcases List.mem_cons.mp hs' with rfl | hs''
      · exact c1 s' hs
      · exact c2 s' hs''
    · rw [if_neg hs]
      have hslt : s < g.nodes.length := h.hsrcbd s (hL s (List.mem_cons_self s L'))
      obtain ⟨b1, b2, b3, b4, b5, ⟨Δ1, hΔ1, hΔ1nd, hΔ1iff⟩, b7⟩ :=
        dfsVisit_basic g.adjList g.nodes.length Hadj (g.nodes.length + 1) (fun _ => False)
          s res visited hslt hs hbd hnd (by omega) hclosed
      have hpart1 : ∀ x, x ∈ (dfsVisit g.adjList (g.nodes.length + 1) s (res, visited)).2 ↔
          x ∈ (dfsVisit g.adjList (g.nodes.length + 1) s (res, visited)).1 := by
        intro x
        rw [hΔ1]
        constructor
        · intro hx
          by_cases hxv : x ∈ visited
          · exact List.mem_append.mpr (Or.inl ((hpart x).mp hxv))
          · exact List.mem_append.mpr (Or.inr ((hΔ1iff x).mpr ⟨hx, hxv⟩))
        · intro hx
          rcases List.mem_append.mp hx with hx' | hx'
          · exact b1 x ((hpart x).mpr hx')
          · exact ((hΔ1iff x).mp hx').1
      have hresnd1 : (dfsVisit g.adjList (g.nodes.length + 1) s (res, visited)).1.Nodup := by
        rw [hΔ1, List.nodup_append]
        refine ⟨hresnd, hΔ1nd, ?_⟩
        intro x hx1 hx2
        exact ((hΔ1iff x).mp hx2).2 ((hpart x).mpr hx1)
      have hsound1 : ∀ x ∈ (dfsVisit g.adjList (g.nodes.length + 1) s (res, visited)).2,
          SourceReachable g x := by
        intro x hx
        rcases b7 x hx with hx' | hx'
        · exact hsound x hx'
        · exact ⟨s, hL s (List.mem_cons_self s L'), hx'⟩
      obtain ⟨c1, c2, c3, c4, c5, c6, c7⟩ := ih
        (dfsVisit g.adjList (g.nodes.length + 1) s (res, visited)).1
        (dfsVisit g.adjList (g.nodes.length + 1) s (res, visited)).2
        (fun s' h' => hL s' (List.mem_cons_of_mem s h')) b4 b3 b5 hpart1 hresnd1 hsound1
      refine ⟨?_, ?_, c3, c4, c5, c6, c7⟩
      · intro x hx
        exact c1 x (b1 x hx)
      · intro s' hs'
        rcases List.mem_cons.mp hs' with rfl | hs''
        · exact c1 s' b2
        · exact c2 s' hs''

theorem dfsTop_post (g : Graph T) (h : WF g)
    (Hacyc : ∀ x, SourceReachable g x → ¬ Relation.TransGen (edgeRel g.adjList) x x) :
    ∀ (L : List Nat) (res visited : List Nat),
    (∀ s ∈ L, s ∈ g.sources) →
    (∀ x ∈ visited, x < g.nodes.length) → visited.Nodup →
    ClosedExcept g.adjList (fun _ => False) visited →
    (∀ x, x ∈ visited ↔ x ∈ res ∨ False) →
    POInv g.adjList (fun _ => False) res →
    (∀ x ∈ visited, SourceReachable g x) →
    POInv g.adjList (fun _ => False) (L.foldl (fun st s => if s ∈ st.2 then st else
      dfsVisit g.adjList (g.nodes.length + 1) s st) (res, visited)).1 := by
  have Hadj : ∀ a d, d ∈ getAdj g.adjList a → d < g.nodes.length := h.hadjbd
  have HP : ∀ x y, SourceReachable g x → y ∈ getAdj g.adjList x → SourceReachable g y := by
    intro x y hx hy
    obtain ⟨s, hs, hpath⟩ := hx
    exact ⟨s, hs, Relation.ReflTransGen.tail hpath hy⟩
  have hpostspec := dfsVisit_post g.adjList g.nodes.length (SourceReachable g) Hadj HP Hacyc
  intro L
  induction L with
  | nil =>
    intro res visited hL hbd hnd hclosed hpart hpo hsound
    simpa only [List.foldl_nil] using hpo
  | cons s L' ih =>
    intro res visited hL hbd hnd hclosed hpart hpo hsound
    simp only [List.foldl_cons]
    by_cases hs : s ∈ visited
    · rw [if_pos hs]
      exact ih res visited (fun s' h' => hL s' (List.mem_cons_of_mem s h')) hbd hnd
        hclosed hpart hpo hsound
    · rw [if_neg hs]
      have hslt : s < g.nodes.length := h.hsrcbd s (hL s (List.mem_cons_self s L'))
      obtain ⟨b1, b2, b3, b4, b5, ⟨Δ1, hΔ1, hΔ1nd, hΔ1iff⟩, b7⟩ :=
        dfsVisit_basic g.adjList g.nodes.length Hadj (g.nodes.length + 1) (fun _ => False)
          s res visited hslt hs hbd hnd (by omega) hclosed
      obtain ⟨p1, p2, p3⟩ := hpostspec (g.nodes.length + 1) (fun _ => False) s res visited
        hslt hs hbd hnd (by omega) hclosed ⟨s, hL s (List.mem_cons_self s L'),
          Relation.ReflTransGen.refl⟩ hpart (fun x _ hf => hf) hpo
      have hsound1 : ∀ x ∈ (dfsVisit g.adjList (g.nodes.length + 1) s (res, visited)).2,
          SourceReachable g x := by
        intro x hx
        rcases b7 x hx with hx' | hx'
        · exact hsound x hx'
        · exact ⟨s, hL s (List.mem_cons_self s L'), hx'⟩
      exact ih (dfsVisit g.adjList (g.nodes.length + 1) s (res, visited)).1
        (dfsVisit g.adjList (g.nodes.length + 1) s (res, visited)).2
        (fun s' h' => hL s' (List.mem_cons_of_mem s h')) b4 b3 b5 p1 p3 hsound1

/-- The finish list of the source loop: duplicate-free, equal as a set to the
visited set, which is exactly the set of source-reachable ids. -/
theorem dfsPost_visited (g : Graph T) (h : WF g) :
    (∀ x, x ∈ g.dfsPost.2 ↔ SourceReachable g x) ∧
    (∀ x, x ∈ g.dfsPost.1 ↔ x ∈ g.dfsPost.2) ∧
    g.dfsPost.1.Nodup ∧
    (∀ x ∈ g.dfsPost.2, x < g.nodes.length) := by
  obtain ⟨c1, c2, c3, c4, c5, c6, c7⟩ := dfsTop_basic g h g.sources [] []
    (fun s hs => hs) (by simp) List.nodup_nil (by intro x hx; simp at hx)
    (by simp) List.nodup_nil (by simp)
  refine ⟨?_, fun x => (c4 x).symm, c5, c7⟩
  intro x
  constructor
  · exact c6 x
  · rintro ⟨s, hs, hpath⟩
    induction hpath with
    | refl => exact c2 s hs
    | tail hab hbc ih => exact c3 _ ih (fun hf => hf) _ hbc

/-- On an acyclic reachable subgraph, the finish list is in post-order: every
successor of a finished node is finished strictly earlier. -/
theorem dfsPost_order (g : Graph T) (h : WF g)
    (Hacyc : ∀ x, SourceReachable g x → ¬ Relation.TransGen (edgeRel g.adjList) x x) :
    ∀ x dx, x ∈ g.dfsPost.1 → dx ∈ getAdj g.adjList x → Before g.dfsPost.1 dx x := by
  have hpo := dfsTop_post g h Hacyc g.sources [] []
    (fun s hs => hs) (by simp) List.nodup_nil (by intro x hx; simp at hx)
    (by simp) (by intro x d hx hd; simp at hx) (by simp)
  intro x dx hx hdx
  rcases hpo x dx hx hdx with hf | hb
  · exact absurd hf (fun hf => hf)
  · exact hb

/-! ## Position arithmetic for the ordering claims -/

theorem indexOf_append_not_mem {α : Type} [DecidableEq α] (L1 rest : List α) (y : α)
    (hy : y ∉ L1) : (L1 ++ rest).indexOf y = L1.length + rest.indexOf y := by
  induction L1 with
  | nil => simp
  | cons a L1' ih =>
    have hya : a ≠ y := fun h => hy (h ▸ List.mem_cons_self a L1')
    simp only [List.cons_append, List.indexOf_cons_ne _ hya, List.length_cons]
    rw [ih (fun h => hy (List.mem_cons_of_mem a h))]
    omega

theorem indexOf_append_mem {α : Type} [DecidableEq α] (L1 rest : List α) (y : α)
    (hy : y ∈ L1) : (L1 ++ rest).indexOf y < L1.length := by
  induction L1 with
  | nil => simp at hy
  | cons a L1' ih =>
    by_cases hay : a = y
    · subst hay
      simp [List.indexOf_cons_self]
    · have hy' : y ∈ L1' := by
        rcases List.mem_cons.mp hy with h | h
        · exact absurd h.symm hay
        · exact h
      simp only [List.cons_append, List.indexOf_cons_ne _ hay, List.length_cons]
      have := ih hy'
      omega

theorem index_lt_of_split {α : Type} [DecidableEq α] (L1 L2 : List α) (A B : α)
    (hBin : B ∈ L1) (hAnotin1 : A ∉ L1) (hAnotin2 : A ∉ L2) (hBnotin2 : B ∉ L2)
    (hBA : B ≠ A) :
    ((L1 ++ A :: L2).indexOf B < (L1 ++ A :: L2).indexOf A) ∧
    ((L2.reverse ++ A :: L1.reverse).indexOf A <
      (L2.reverse ++ A :: L1.reverse).indexOf B) := by
  constructor
  · have hA : (L1 ++ A :: L2).indexOf A = L1.length := by
      rw [indexOf_append_not_mem _ _ _ hAnotin1, List.indexOf_cons_self]
      omega
    have hB : (L1 ++ A :: L2).indexOf B < L1.length := indexOf_append_mem _ _ _ hBin
    omega
  · have hA : (L2.reverse ++ A :: L1.reverse).indexOf A = L2.reverse.length := by
      rw [indexOf_append_not_mem _ _ _ (by rw [List.mem_reverse]; exact hAnotin2),
        List.indexOf_cons_self]
      omega
    have hB : L2.reverse.length < (L2.reverse ++ A :: L1.reverse).indexOf B := by
      rw [indexOf_append_not_mem _ _ _ (by rw [List.mem_reverse]; exact hBnotin2),
        List.indexOf_cons_ne _ (Ne.symm hBA)]
      omega
    omega

theorem topoMap_nodup (g : Graph T) [Inhabited T] (h : WF g) :
    (g.dfsPost.1.map (fun id => g.nodes.getD id default)).Nodup := by
  obtain ⟨hvis, hrv, hnd, hbd⟩ := dfsPost_visited g h
  apply List.Nodup.map_on ?_ hnd
  intro x hx y hy hfe
  have hxlt : x < g.nodes.length := hbd x ((hrv x).mp hx)
  have hylt : y < g.nodes.length := hbd y ((hrv y).mp hy)
  rw [List.getD_eq_getElem _ _ hxlt, List.getD_eq_getElem _ _ hylt] at hfe
  exact h.hnodup.getElem_inj_iff.mp hfe

theorem acyclic_of_ranked (adj : List (List Nat))
    (hr : ∀ x y, y ∈ getAdj adj x → x < y) :
    ∀ x, ¬ Relation.TransGen (edgeRel adj) x x := by
  have hlt : ∀ x y, Relation.TransGen (edgeRel adj) x y → x < y := by
    intro x y hxy
    induction hxy with
    | single h => exact hr _ _ h
    | tail hxy hyz ih => exact lt_trans ih (hr _ _ hyz)
  intro x hx
  exact absurd (hlt x x hx) (lt_irrefl x)

/-! ## Claim theorems: topological sort -/

/-- C1 fails as stated: an inactive source still appears in the output of
`topologicalSort`.  After `addNode(0, isSource)` and `removeNode(0)`, node `0`
is inactive yet `topologicalSort(false)` returns `[0]`. -/
theorem claim1_counterexample :
    (((emptyGraph Nat).addNode 0 true).removeNode 0).topologicalSort false = [0] ∧
    lookupNM (((emptyGraph Nat).addNode 0 true).removeNode 0).nodeMap 0 =
      some (false, 0) := by
  exact ⟨by decide, by decide⟩

/-- C1 (amended): for either value of `reverseOrder`, `topologicalSort` lists
exactly the node values whose id is reachable from the declared source-id set
via forward edges — each exactly once.  Since removed nodes have no incident
edges, these are the active reachable nodes together with the inactive nodes
whose ids remain in the source set. -/
theorem claim1_reachable_cover (g : Graph T) [Inhabited T] (hc : Constructed g)
    (rev : Bool) :
    (g.topologicalSort rev).Nodup ∧
    (∀ v : T, v ∈ g.topologicalSort rev ↔
      ∃ b i, lookupNM g.nodeMap v = some (b, i) ∧ SourceReachable g i) := by
  have h := WF_constructed g hc
  obtain ⟨hvis, hrv, hnd, hbd⟩ := dfsPost_visited g h
  have hmapnd := topoMap_nodup g h
  have hmem : ∀ v : T, v ∈ g.dfsPost.1.map (fun id => g.nodes.getD id default) ↔
      ∃ b i, lookupNM g.nodeMap v = some (b, i) ∧ SourceReachable g i := by
    intro v
    rw [List.mem_map]
    constructor
    · rintro ⟨id, hid, rfl⟩
      have hidlt : id < g.nodes.length := hbd id ((hrv id).mp hid)
      obtain ⟨b, hb⟩ := h.lookup_of_nodes_getElem (List.getElem?_eq_getElem hidlt)
      refine ⟨b, id, ?_, (hvis id).mp ((hrv id).mp hid)⟩
      rw [List.getD_eq_getElem _ _ hidlt]
      exact hb
    · rintro ⟨b, i, hb, hSR⟩
      have hires : i ∈ g.dfsPost.1 := (hrv i).mpr ((hvis i).mpr hSR)
      refine ⟨i, hires, ?_⟩
      have hsome := (h.lookup_entry hb).2
      have hilt : i < g.nodes.length := (h.lookup_mem_nodes hb).2
      rw [List.getElem?_eq_getElem hilt] at hsome
      rw [List.getD_eq_getElem _ _ hilt]
      exact Option.some.inj hsome
  cases rev with
  | true => exact ⟨hmapnd, hmem⟩
  | false =>
    refine ⟨?_, ?_⟩
    · show ((g.dfsPost.1.map (fun id => g.nodes.getD id default)).reverse).Nodup
      rw [List.nodup_reverse]
      exact hmapnd
    · intro v
      show v ∈ (g.dfsPost.1.map (fun id => g.nodes.getD id default)).reverse ↔ _
      rw [List.mem_reverse]
      exact hmem v

theorem claim1_reachable_cover_witness :
    ((((emptyGraph Nat).addNode 0 true).addEdge 0 1).topologicalSort false).Nodup ∧
    (5 ∈ (((emptyGraph Nat).addNode 0 true).addEdge 0 1).topologicalSort false ↔
      ∃ b i, lookupNM (((emptyGraph Nat).addNode 0 true).addEdge 0 1).nodeMap 5 =
        some (b, i) ∧ SourceReachable (((emptyGraph Nat).addNode 0 true).addEdge 0 1) i) := by
  have hc : Constructed (((emptyGraph Nat).addNode 0 true).addEdge 0 1) :=
    Constructed.step _ (Op.addEdge 0 1)
      (Constructed.step _ (Op.addNode 0 true) Constructed.empty)
  have h1 := claim1_reachable_cover (((emptyGraph Nat).addNode 0 true).addEdge 0 1) hc false
  exact ⟨h1.1, h1.2 5⟩

/-- C2: if the source-reachable subgraph is acyclic, then for every edge
`a → b` with `a` reachable from a source, `a` appears strictly before `b` in
`topologicalSort(false)` and strictly after `b` in `topologicalSort(true)`. -/
theorem claim2_topological_order (g : Graph T) [Inhabited T] (hc : Constructed g)
    (hacyc : ∀ x, SourceReachable g x → ¬ Relation.TransGen (edgeRel g.adjList) x x)
    (a b : T) (ba bb : Bool) (ia ib : Nat)
    (hla : lookupNM g.nodeMap a = some (ba, ia))
    (hlb : lookupNM g.nodeMap b = some (bb, ib))
    (hedge : ib ∈ getAdj g.adjList ia)
    (hra : SourceReachable g ia) :
    (g.topologicalSort false).indexOf a < (g.topologicalSort false).indexOf b ∧
    (g.topologicalSort true).indexOf b < (g.topologicalSort true).indexOf a := by
  have h := WF_constructed g hc
  obtain ⟨hvis, hrv, hnd, hbd⟩ := dfsPost_visited g h
  have hiares : ia ∈ g.dfsPost.1 := (hrv ia).mpr ((hvis ia).mpr hra)
  obtain ⟨l1, l2, hres, hibmem⟩ := dfsPost_order g h hacyc ia ib hiares hedge
  have hialt : ia < g.nodes.length := (h.lookup_mem_nodes hla).2
  have hiblt : ib < g.nodes.length := (h.lookup_mem_nodes hlb).2
  have hfa : g.nodes.getD ia default = a := by
    have hsome := (h.lookup_entry hla).2
    rw [List.getElem?_eq_getElem hialt] at hsome
    rw [List.getD_eq_getElem _ _ hialt]
    exact Option.some.inj hsome
  have hfb : g.nodes.getD ib default = b := by
    have hsome := (h.lookup_entry hlb).2
    rw [List.getElem?_eq_getElem hiblt] at hsome
    rw [List.getD_eq_getElem _ _ hiblt]
    exact Option.some.inj hsome
  have hmapnd := topoMap_nodup g h
  have hmap : g.dfsPost.1.map (fun id => g.nodes.getD id default) =
      l1.map (fun id => g.nodes.getD id default) ++
        a :: l2.map (fun id => g.nodes.getD id default) := by
    rw [hres]
    simp only [List.map_append, List.map_cons]
    rw [hfa]
  have hbinl1 : b ∈ l1.map (fun id => g.nodes.getD id default) := by
    rw [← hfb]
    exact List.mem_map_of_mem _ hibmem
  have hndparts := hmap ▸ hmapnd
  rw [List.nodup_append] at hndparts
  obtain ⟨hnd1, hnd2, hdisj⟩ := hndparts
  have hanotin1 : a ∉ l1.map (fun id => g.nodes.getD id default) := by
    intro hmem
    exact hdisj hmem (List.mem_cons_self a _)
  have hanotin2 : a ∉ l2.map (fun id => g.nodes.getD id default) := by
    rw [List.nodup_cons] at hnd2
    exact hnd2.1
  have hbne : b ≠ a := fun he => hanotin1 (he ▸ hbinl1)
  have hbnotin2 : b ∉ l2.map (fun id => g.nodes.getD id default) := by
    intro hmem
    exact hdisj hbinl1 (List.mem_cons_of_mem _ hmem)
  obtain ⟨hTrue, hFalse⟩ := index_lt_of_split
    (l1.map (fun id => g.nodes.getD id default))
    (l2.map (fun id => g.nodes.getD id default)) a b
    hbinl1 hanotin1 hanotin2 hbnotin2 hbne
  constructor
  · have heq : g.topologicalSort false =
        (l2.map (fun id => g.nodes.getD id default)).reverse ++
          a :: (l1.map (fun id => g.nodes.getD id default)).reverse := by
      have hf0 : g.topologicalSort false =
          (g.dfsPost.1.map (fun id => g.nodes.getD id default)).reverse := rfl
      rw [hf0, hmap]
      simp [List.reverse_append, List.reverse_cons, List.append_assoc]
    rw [heq]
    exact hFalse
  · have heq : g.topologicalSort true =
        l1.map (fun id => g.nodes.getD id default) ++
          a :: l2.map (fun id => g.nodes.getD id default) := by
      have ht0 : g.topologicalSort true =
          g.dfsPost.1.map (fun id => g.nodes.getD id default) := rfl
      rw [ht0, hmap]
    rw [heq]
    exact hTrue

theorem claim2_topological_order_witness :
    ((((emptyGraph Nat).addNode 0 true).addEdge 0 1).topologicalSort false).indexOf 0 <
      ((((emptyGraph Nat).addNode 0 true).addEdge 0 1).topologicalSort false).indexOf 1 := by
  have hc : Constructed (((emptyGraph Nat).addNode 0 true).addEdge 0 1) :=
    Constructed.step _ (Op.addEdge 0 1)
      (Constructed.step _ (Op.addNode 0 true) Constructed.empty)
  have hadj : (((emptyGraph Nat).addNode 0 true).addEdge 0 1).adjList = [[1], []] := by
    decide
  have hrank : ∀ x y, y ∈ getAdj (((emptyGraph Nat).addNode 0 true).addEdge 0 1).adjList x →
      x < y := by
    intro x y hy
    rw [hadj] at hy
    match x with
    | 0 =>
      simp [getAdj] at hy
      omega
    | 1 => simp [getAdj] at hy
    | n + 2 =>
      rw [getAdj_out_of_range _ _ (by simp)] at hy
      simp at hy
  have hacyc : ∀ x, SourceReachable (((emptyGraph Nat).addNode 0 true).addEdge 0 1) x →
      ¬ Relation.TransGen (edgeRel (((emptyGraph Nat).addNode 0 true).addEdge 0 1).adjList)
        x x :=
    fun x _ => acyclic_of_ranked _ hrank x
  exact (claim2_topological_order (((emptyGraph Nat).addNode 0 true).addEdge 0 1) hc hacyc
    0 1 true true 0 1 (by decide) (by decide) (by decide)
    ⟨0, by decide, Relation.ReflTransGen.refl⟩).1

end CladGraph
